import Mathlib

/-!
Shallow embedding of the MoltHotel simulation core (sim.ts): location graph,
access control, BFS path finding, agent movement state machine, tick
scheduling, smoking diversion, and room assignment. Definitions mirror the
TypeScript source; JavaScript `Record`s become ordered association lists
(object keys are unique and enumerate in insertion order), optional fields
become `Option`, and `Math.random()` draws become injected boolean outcomes.
-/

namespace MoltHotel

/-- `Location` record from sim.ts (`hotelContext.locations` values).
`owner` collapses JS `null`/`undefined` to `none`. -/
structure Location where
  floor : Int
  staff_only : Bool
  is_private_room : Bool
  description : String
  connections : List String
  is_locked : Bool := false
  owner : Option String := none
  deriving Repr, DecidableEq

/-- The location table `hotelContext.locations`: a JS object modelled as an
ordered association list with unique keys. -/
abbrev Locs := List (String × Location)

/-- `agentsConfig` entry from sim.ts. `isMoving?: boolean` is used only for
its truthiness, so `undefined` is collapsed to `false`; the remaining
optional fields stay `Option`. -/
structure AgentConfig where
  name : String
  gender : String
  isSmoker : Bool
  job : String
  isActive : Bool
  lastSmoke : Option Nat := none
  isMoving : Bool := false
  movingTo : Option String := none
  movementPath : Option (List String) := none
  movementProgress : Option Int := none
  deriving Repr, DecidableEq

/-- Whole mutable simulation state: `hotelContext.locations`, `agentsConfig`,
`agentPositions` (a JS object with possibly-undefined entries, modelled as a
function to `Option`), and `tickCounter`. -/
structure SimState where
  locations : Locs
  agentsConfig : List (String × AgentConfig)
  agentPositions : String → Option String
  tickCounter : Nat

/-- JS `record[key] = { ...record[key], changed fields }` on an association
list: rewrite the binding for `name` in place, keeping enumeration order. -/
def updateEntry {α : Type} (m : List (String × α)) (name : String) (f : α → α) :
    List (String × α) :=
  m.map (fun p => if p.1 == name then (p.1, f p.2) else p)

/-- `canAccessLocation` from sim.ts: unknown locations are inaccessible,
non-private locations are free, private rooms admit only their owner. -/
def canAccessLocation (locs : Locs) (agentName location : String) : Bool :=
  match locs.lookup location with
  | none => false
  | some locData =>
    if !locData.is_private_room then true
    else locData.owner == some agentName

/-- `hotelContext.locations[location]?.connections ?? []` — the stored
adjacency list of a location. -/
def connectionsOf (locs : Locs) (location : String) : List String :=
  match locs.lookup location with
  | some l => l.connections
  | none => []

/-- The floor test guarding the BFS frontier in `findPath`:
`hotelContext.locations[neighbor]?.floor === from.floor` (false when the
neighbour name is unknown). -/
def floorOk (locs : Locs) (homeFloor : Int) (v : String) : Bool :=
  match locs.lookup v with
  | some vl => vl.floor == homeFloor
  | none => false

/-- One frontier expansion of the BFS in `findPath`: walk the dequeued
location's `connections`; every not-yet-visited neighbour is marked visited,
and those that exist on the start floor are enqueued with the extended path.
Returns (new visited set, list of enqueued entries in `connections` order). -/
def expandStep (locs : Locs) (homeFloor : Int) (path : List String) :
    List String → List String → List String × List (String × List String)
  | [], visited => (visited, [])
  | n :: ns, visited =>
    if visited.contains n then expandStep locs homeFloor path ns visited
    else
      let rest := expandStep locs homeFloor path ns (n :: visited)
      if floorOk locs homeFloor n then (rest.1, (n, path ++ [n]) :: rest.2)
      else rest

/-- The `while (queue.length > 0)` loop of `findPath`. The source loop needs
no fuel; here fuel counts loop iterations, and the wrapper passes enough for
the loop to run to completion (each iteration dequeues an entry, and every
enqueued entry is a graph key freshly added to `visited`). -/
def bfsAux (locs : Locs) (homeFloor : Int) (target : String) :
    Nat → List (String × List String) → List String → List String
  | 0, _, _ => []
  | _ + 1, [], _ => []
  | fuel + 1, (location, path) :: rest, visited =>
    if location == target then path
    else
      let st := expandStep locs homeFloor path (connectionsOf locs location) visited
      bfsAux locs homeFloor target fuel (rest ++ st.2) st.1

/-- `findPath` from sim.ts: unknown endpoints give `[]`; `from == to` gives
`[to]`; differing floors give `[]` immediately; otherwise BFS restricted to
the start location's floor, returning `[]` when the queue empties. -/
def findPath (locs : Locs) (fromLocation toLocation : String) : List String :=
  match locs.lookup fromLocation, locs.lookup toLocation with
  | some fromL, some toL =>
    if fromLocation == toLocation then [toLocation]
    else if fromL.floor != toL.floor then []
    else
      bfsAux locs fromL.floor toLocation (2 * locs.length + 1)
        [(fromLocation, [fromLocation])] [fromLocation]
  | _, _ => []

/-- `moveAgent` from sim.ts. Returns the new state and the boolean result;
every refusal path returns the state untouched. A missing
`agentPositions[agentName]` cannot equal the target and makes `findPath`
fail its source lookup, so the `none` branch yields `[]`. -/
def moveAgent (s : SimState) (agentName target : String) : SimState × Bool :=
  match s.agentsConfig.lookup agentName with
  | none => (s, false)
  | some config =>
    if config.isMoving then (s, false)
    else
      let currentLocation := s.agentPositions agentName
      if currentLocation == some target then (s, false)
      else if !canAccessLocation s.locations agentName target then (s, false)
      else
        let pathResult :=
          match currentLocation with
          | some cur => findPath s.locations cur target
          | none => []
        if pathResult.isEmpty then (s, false)
        else
          let movementPath := pathResult.tail
          let config2 := { config with
            isMoving := true
            movingTo := some target
            movementPath := some movementPath
            movementProgress := some (movementPath.length : Int) }
          ({ s with agentsConfig := updateEntry s.agentsConfig agentName (fun _ => config2) },
            true)

/-- `updateMovement` from sim.ts: shift the next hop off `movementPath`, move
the agent there, decrement `movementProgress`; when the counter hits zero or
the path empties, snap the position to `movingTo` and clear the movement
fields (the arrival log write is external I/O and not modelled). -/
def updateMovement (s : SimState) (agentName : String) : SimState :=
  match s.agentsConfig.lookup agentName with
  | none => s
  | some config =>
    if !config.isMoving then s
    else
      match config.movementPath with
      | none => s
      | some mp =>
        let positions2 : String → Option String :=
          match mp.head? with
          | some nl => fun a => if a == agentName then some nl else s.agentPositions a
          | none => s.agentPositions
        let mp2 := mp.tail
        let progress2 := (config.movementProgress.getD 0) - 1
        if progress2 ≤ 0 || mp2.isEmpty then
          let positions3 : String → Option String :=
            fun a => if a == agentName then config.movingTo else positions2 a
          let config2 := { config with
            isMoving := false
            movingTo := none
            movementPath := none
            movementProgress := none }
          { s with
            agentsConfig := updateEntry s.agentsConfig agentName (fun _ => config2)
            agentPositions := positions3 }
        else
          let config2 := { config with
            movementPath := some mp2
            movementProgress := some progress2 }
          { s with
            agentsConfig := updateEntry s.agentsConfig agentName (fun _ => config2)
            agentPositions := positions2 }

/-- The `previousOwner` clearing step of `assignRoom`: find the first
location whose `owner` is the agent (JS
`Object.keys(...).find(loc => locations[loc].owner === agentName)`) and
reset its owner and lock. -/
def clearPreviousOwned (locs : Locs) (agentName : String) : Locs :=
  match (locs.find? (fun p => p.2.owner == some agentName)).map Prod.fst with
  | some prev =>
    updateEntry locs prev (fun l => { l with owner := none, is_locked := false })
  | none => locs

/-- The final location table of a successful `assignRoom`: previous room
cleared, target room granted to the agent and locked. -/
def assignedLocs (locs : Locs) (agentName roomName : String) : Locs :=
  updateEntry (clearPreviousOwned locs agentName) roomName
    (fun l => { l with owner := some agentName, is_locked := true })

/-- `assignRoom` from sim.ts: requires a known agent and a known private
room; clears (owner, lock) on the first location currently owned by the
agent, then grants and locks the target room. -/
def assignRoom (s : SimState) (agentName roomName : String) : SimState × Bool :=
  match s.agentsConfig.lookup agentName with
  | none => (s, false)
  | some _ =>
    match s.locations.lookup roomName with
    | none => (s, false)
    | some room =>
      if !room.is_private_room then (s, false)
      else
        ({ s with locations := assignedLocs s.locations agentName roomName }, true)

/-- `getActiveAgents` from sim.ts: the names of active agents, in the
configuration object's enumeration order. -/
def getActiveAgents (agentsConfig : List (String × AgentConfig)) : List String :=
  (agentsConfig.filter (fun p => p.2.isActive)).map Prod.fst

/-- Outcomes of the `Math.random()` draws consumed by one
`selectAgentsForTick` call: the two comparisons choosing the target count,
and the per-index `> 0.3` inclusion draws. -/
structure TickRandom where
  highDraw : Bool
  midDraw : Bool
  keep : Nat → Bool

/-- The rotation computed inside `selectAgentsForTick`: the active list
rotated by `tickCounter % length`. -/
def rotatedAgents (agentsConfig : List (String × AgentConfig)) (tickCounter : Nat) :
    List String :=
  let activeAgents := getActiveAgents agentsConfig
  let rotationOffset := tickCounter % activeAgents.length
  activeAgents.drop rotationOffset ++ activeAgents.take rotationOffset

/-- `selectAgentsForTick` from sim.ts with the random draws injected: pick a
count of 5/3/2, rotate the active list by the tick counter, keep each of the
first `count` rotated agents when its draw succeeds, and fall back to the
rotation's head when everything was dropped. -/
def selectAgentsForTick (agentsConfig : List (String × AgentConfig))
    (tickCounter : Nat) (r : TickRandom) : List String :=
  let activeAgents := getActiveAgents agentsConfig
  if activeAgents.length == 0 then []
  else
    let count : Nat := if r.highDraw then 5 else if r.midDraw then 3 else 2
    let rotated := rotatedAgents agentsConfig tickCounter
    let selected :=
      (((rotated.take count).enum).filter (fun p => r.keep p.1)).map Prod.snd
    if selected.length == 0 then [rotated.headD ""] else selected

/-- `SMOKING_INTERVAL` from sim.ts. -/
def SMOKING_INTERVAL : Nat := 6

/-- `shouldGoSmoke` from sim.ts, with the probability gate injected as a
boolean outcome (`Math.random() > 0.4`). -/
def shouldGoSmoke (agentsConfig : List (String × AgentConfig)) (tickCounter : Nat)
    (agentName : String) (gate : Bool) : Bool :=
  match agentsConfig.lookup agentName with
  | none => false
  | some config =>
    if !config.isSmoker then false
    else
      let lastSmoke := config.lastSmoke.getD 0
      if SMOKING_INTERVAL ≤ tickCounter - lastSmoke then gate else false

/-- `handleSmoking` from sim.ts: issue the move towards the smoking area and
stamp `lastSmoke` with the current tick, whatever `moveAgent` returned. -/
def handleSmoking (s : SimState) (agentName : String) : SimState :=
  let s1 := (moveAgent s agentName "outside_smoking_area").1
  { s1 with
    agentsConfig :=
      updateEntry s1.agentsConfig agentName
        (fun c => { c with lastSmoke := some s1.tickCounter }) }

/-- Boolean edge relation of the floor-restricted search graph that
`findPath`'s BFS explores: `v` is listed among `u`'s stored connections and
exists on the given floor. -/
def isEdge (locs : Locs) (homeFloor : Int) (u v : String) : Bool :=
  (connectionsOf locs u).contains v && floorOk locs homeFloor v

/-- Boolean chain predicate: consecutive list elements are related. -/
def chainB {α : Type} (f : α → α → Bool) : List α → Bool
  | [] => true
  | [_] => true
  | a :: b :: rest => f a b && chainB f (b :: rest)

/-- A valid floor-restricted walk for the search graph: nonempty, starts at
`a`, ends at `b`, and each consecutive pair is an `isEdge` step. Its hop
count is its length minus one. -/
def isValidPath (locs : Locs) (homeFloor : Int) (a b : String) (p : List String) : Bool :=
  (p.head? == some a) && (p.getLast? == some b) && chainB (isEdge locs homeFloor) p

/-- The bookkeeping invariant of an EnRoute agent: `movementProgress` mirrors
the length of the pending `movementPath`, and that length is positive. -/
def enRouteInv (c : AgentConfig) : Prop :=
  c.isMoving = true →
    ∃ mp, c.movementPath = some mp ∧ 0 < mp.length ∧
      c.movementProgress = some (mp.length : Int)

/-- Number of location entries recorded as owned by `agentName`. -/
def ownedCount (locs : Locs) (agentName : String) : Nat :=
  (locs.filter (fun p => p.2.owner == some agentName)).length

/-- Number of distinct location keys not yet marked visited; drives the BFS
iteration bound. -/
def keysNotVisited (locs : Locs) (visited : List String) : Nat :=
  (((locs.map Prod.fst).dedup).filter (fun k => !visited.contains k)).length

/-- Loop invariant of the BFS in `findPath`, for source `S` and target `T`:
queued entries carry valid floor-restricted walks; the source is visited;
a visited on-floor node absent from the queue has been fully expanded; the
target is never expanded away silently; queued walk lengths are sorted and
within one of each other; and every source-to-target walk is covered by some
queue entry at least as short as the walk's prefix to that entry. -/
structure BfsInv (locs : Locs) (fl : Int) (S T : String)
    (Q : List (String × List String)) (V : List String) : Prop where
  sound : ∀ e ∈ Q, isValidPath locs fl S e.1 e.2 = true
  sInV : S ∈ V
  closed : ∀ v ∈ V, (v = S ∨ floorOk locs fl v = true) → (∀ e ∈ Q, e.1 ≠ v) →
    ∀ w, isEdge locs fl v w = true → w ∈ V
  openT : floorOk locs fl T = true → T ∈ V → ∃ e ∈ Q, e.1 = T
  sorted : Q.Pairwise (fun e1 e2 => e1.2.length ≤ e2.2.length)
  window : ∀ e1 ∈ Q, ∀ e2 ∈ Q, e2.2.length ≤ e1.2.length + 1
  cover : ∀ p, isValidPath locs fl S T p = true →
    ∃ e ∈ Q, ∃ i, i < p.length ∧ p.getD i "" = e.1 ∧ e.2.length ≤ i + 1

/-! Concrete data used by counterexamples and witnesses. -/

/-- Location value builder for the concrete examples. -/
def demoLoc (fl : Int) (conns : List String) (priv : Bool := false)
    (own : Option String := none) : Location :=
  { floor := fl, staff_only := false, is_private_room := priv,
    description := "", connections := conns, owner := own }

/-- Agent value builder for the concrete examples. -/
def demoAgent (nm : String) : AgentConfig :=
  { name := nm, gender := "male", isSmoker := true, job := "guest",
    isActive := true, lastSmoke := some 0 }

/-- The spec scenario graph: lobby — room1 (private, owner Alice) — hall,
all on floor 1, so the only lobby-to-hall route runs through Alice's room. -/
def accessLocs : Locs :=
  [("lobby", demoLoc 1 ["room1"]),
   ("room1", demoLoc 1 ["lobby", "hall"] true (some "Alice")),
   ("hall", demoLoc 1 ["room1"])]

/-- Bob idle in the lobby of `accessLocs`. -/
def bobState : SimState :=
  { locations := accessLocs
    agentsConfig := [("Bob", demoAgent "Bob")]
    agentPositions := fun a => if a == "Bob" then some "lobby" else none
    tickCounter := 0 }

/-- Two-floor graph: `a` (floor 1) stores an edge to `b` (floor 2); `c` is
on floor 1 but disconnected from `a`. -/
def floorLocs : Locs :=
  [("a", demoLoc 1 ["b"]),
   ("b", demoLoc 2 ["a"]),
   ("c", demoLoc 1 [])]

/-- Line graph A — B — C on floor 1, plus an isolated D on floor 1. -/
def lineLocs : Locs :=
  [("A", demoLoc 1 ["B"]),
   ("B", demoLoc 1 ["A", "C"]),
   ("C", demoLoc 1 ["B"]),
   ("D", demoLoc 1 [])]

/-- Louis idle at A in the line graph, tick counter 4. -/
def louisState : SimState :=
  { locations := lineLocs
    agentsConfig := [("Louis", demoAgent "Louis")]
    agentPositions := fun a => if a == "Louis" then some "A" else none
    tickCounter := 4 }

/-- Louis already en route towards C (one hop pending). -/
def busyState : SimState :=
  { louisState with
    agentsConfig := [("Louis",
      { demoAgent "Louis" with
        isMoving := true
        movingTo := some "C"
        movementPath := some ["C"]
        movementProgress := some 1 })] }

/-- Three active agents for the scheduler examples. -/
def trioConfig : List (String × AgentConfig) :=
  [("Louis", demoAgent "Louis"),
   ("Fred", demoAgent "Fred"),
   ("Maika", demoAgent "Maika")]

/-- Two private rooms: roomX currently owned by Louis, roomY unowned. -/
def roomState : SimState :=
  { louisState with
    locations :=
      [("roomX", demoLoc 1 [] true (some "Louis")),
       ("roomY", demoLoc 1 [] true none)] }

/-! Association-list bookkeeping lemmas. -/

theorem lookup_updateEntry_self {α : Type} (m : List (String × α)) (n : String)
    (f : α → α) : (updateEntry m n f).lookup n = (m.lookup n).map f := by
  induction m with
  | nil => rfl
  | cons p t ih =>
    obtain ⟨k, v⟩ := p
    by_cases h : k = n
    · subst h
      simp [updateEntry, List.lookup_cons]
    · have hb : (k == n) = false := by simpa using h
      have hb2 : (n == k) = false := by simpa using Ne.symm h
      simp only [updateEntry, List.map_cons, hb, Bool.false_eq_true, if_false,
        List.lookup_cons, hb2] at ih ⊢
      exact ih

theorem lookup_updateEntry_ne {α : Type} (m : List (String × α)) (n k : String)
    (f : α → α) (h : k ≠ n) : (updateEntry m n f).lookup k = m.lookup k := by
  induction m with
  | nil => rfl
  | cons p t ih =>
    obtain ⟨k1, v⟩ := p
    simp only [updateEntry, List.map_cons] at ih ⊢
    by_cases h1 : k1 = n
    · subst h1
      have hb : (k == k1) = false := by simpa using h
      have hkk : (k1 == k1) = true := by simp
      simp only [hkk, if_true, List.lookup_cons, hb]
      exact ih
    · have hb : (k1 == n) = false := by simpa using h1
      simp only [hb, Bool.false_eq_true, if_false, List.lookup_cons]
      cases hkk : k == k1 with
      | true => rfl
      | false => exact ih

/-! Claim C1. -/

/-- C1 counterexample: `findPath` performs no access filtering, so in the
spec's own scenario graph the route it returns from the lobby to the hall
passes through Alice's private room, which Bob cannot access, and
`moveAgent` happily starts Bob on that route. -/
theorem C1_counterexample :
    findPath accessLocs "lobby" "hall" = ["lobby", "room1", "hall"] ∧
    canAccessLocation accessLocs "Bob" "room1" = false ∧
    (accessLocs.lookup "room1").map Location.is_private_room = some true ∧
    (moveAgent bobState "Bob" "hall").2 = true ∧
    ((moveAgent bobState "Bob" "hall").1.agentsConfig.lookup "Bob").map
      AgentConfig.movementPath = some (some ["room1", "hall"]) := by
  refine ⟨by decide, by decide, by decide, by decide, by decide⟩

/-- C1 (amended): the access predicate is checked by `moveAgent` for the
final destination only, never by `findPath` for waypoints; any request whose
destination fails `canAccessLocation` is refused with the state unchanged
(in particular the lobby-to-private-room request), but a returned path may
traverse an inaccessible private room as a waypoint. -/
theorem C1_theorem (s : SimState) (agentName target : String)
    (h : canAccessLocation s.locations agentName target = false) :
    moveAgent s agentName target = (s, false) := by
  unfold moveAgent
  cases hc : s.agentsConfig.lookup agentName with
  | none => rfl
  | some config =>
    simp only
    by_cases hm : config.isMoving
    · simp [hm]
    · simp [hm, h]

/-- C1 witness: Bob's request for Alice's room is refused. -/
theorem C1_witness : moveAgent bobState "Bob" "room1" = (bobState, false) :=
  C1_theorem bobState "Bob" "room1" (by decide)

/-! Claim C2. -/

/-- C2 counterexample: a cross-floor request (with a structural stored edge)
and a same-floor no-path request produce the identical result `[]`; the
cross-floor outcome is not surfaced distinctly from the unreachable one. -/
theorem C2_counterexample :
    findPath floorLocs "a" "b" = [] ∧
    findPath floorLocs "a" "c" = [] ∧
    "b" ∈ connectionsOf floorLocs "a" := by
  refine ⟨by decide, by decide, by decide⟩

/-- C2 (amended): a request between known locations on different floors is
rejected immediately — `findPath` returns before any search — but the
rejection is returned as the empty list, the same value as the
no-path (Unreachable) outcome, not a distinct `CrossFloor` result. -/
theorem C2_theorem (locs : Locs) (fromLocation toLocation : String)
    (fromL toL : Location)
    (hf : locs.lookup fromLocation = some fromL)
    (ht : locs.lookup toLocation = some toL)
    (hne : fromLocation ≠ toLocation)
    (hfl : fromL.floor ≠ toL.floor) :
    findPath locs fromLocation toLocation = [] := by
  unfold findPath
  rw [hf, ht]
  simp [hne, hfl]

/-- C2 witness: the cross-floor pair of the concrete graph. -/
theorem C2_witness : findPath floorLocs "a" "b" = [] :=
  C2_theorem floorLocs "a" "b" (demoLoc 1 ["b"]) (demoLoc 2 ["a"])
    (by decide) (by decide) (by decide) (by decide)

/-! Shape lemmas for `moveAgent`. -/

theorem moveAgent_shape (s : SimState) (a t : String) :
    (moveAgent s a t).1 = s ∨
    ∃ c2, (moveAgent s a t).1 =
      { s with agentsConfig := updateEntry s.agentsConfig a (fun _ => c2) } := by
  unfold moveAgent
  cases s.agentsConfig.lookup a with
  | none => exact Or.inl rfl
  | some config =>
    simp only
    split
    · exact Or.inl rfl
    · split
      · exact Or.inl rfl
      · split
        · exact Or.inl rfl
        · split
          · exact Or.inl rfl
          · exact Or.inr ⟨_, rfl⟩

theorem moveAgent_tickCounter (s : SimState) (a t : String) :
    (moveAgent s a t).1.tickCounter = s.tickCounter := by
  rcases moveAgent_shape s a t with h | ⟨c2, h⟩ <;> rw [h]

theorem moveAgent_lookup_isSome (s : SimState) (a t : String) (config : AgentConfig)
    (hc : s.agentsConfig.lookup a = some config) :
    ∃ c2, (moveAgent s a t).1.agentsConfig.lookup a = some c2 := by
  rcases moveAgent_shape s a t with h | ⟨c2, h⟩
  · rw [h]
    exact ⟨config, hc⟩
  · rw [h]
    exact ⟨c2, by simp [lookup_updateEntry_self, hc]⟩

/-! Claim C6. -/

/-- C6: refused movement requests change nothing: a request issued on an
already-EnRoute agent refuses (the Busy outcome) with the entire state
untouched, and a request whose path search returns no route (the Unreachable
outcome) likewise refuses with the state untouched, leaving the agent Idle
in place. -/
theorem C6_theorem (s : SimState) (agentName target : String) (config : AgentConfig)
    (hc : s.agentsConfig.lookup agentName = some config) :
    (config.isMoving = true → moveAgent s agentName target = (s, false)) ∧
    (∀ cur, s.agentPositions agentName = some cur →
      findPath s.locations cur target = [] →
      moveAgent s agentName target = (s, false)) := by
  constructor
  · intro hm
    unfold moveAgent
    rw [hc]
    simp [hm]
  · intro cur hpos hfp
    unfold moveAgent
    rw [hc]
    by_cases hm : config.isMoving
    · simp [hm]
    · simp [hm, hpos, hfp]

/-- C6 witness: a busy Louis and an unreachable target both refuse without
touching the state. -/
theorem C6_witness :
    moveAgent busyState "Louis" "A" = (busyState, false) ∧
    moveAgent louisState "Louis" "D" = (louisState, false) :=
  ⟨(C6_theorem busyState "Louis" "A" _ rfl).1 rfl,
   (C6_theorem louisState "Louis" "D" _ rfl).2 "A" rfl (by decide)⟩

/-! Claim C9. -/

/-- C9: triggering the smoking diversion stamps the agent's `lastSmoke`
cooldown with the current tick counter whether or not the movement request
towards the smoking area actually started. -/
theorem C9_theorem (s : SimState) (agentName : String) (config : AgentConfig)
    (hc : s.agentsConfig.lookup agentName = some config) :
    ((handleSmoking s agentName).agentsConfig.lookup agentName).map
      AgentConfig.lastSmoke = some (some s.tickCounter) := by
  obtain ⟨c2, hl⟩ :=
    moveAgent_lookup_isSome s agentName "outside_smoking_area" config hc
  unfold handleSmoking
  simp only
  rw [lookup_updateEntry_self, hl]
  simp [moveAgent_tickCounter]

/-- C9 witness: Louis's stamp at tick 4 (his move to the smoking area is
refused — the area is not in the line graph — yet the stamp happens). -/
theorem C9_witness :
    ((handleSmoking louisState "Louis").agentsConfig.lookup "Louis").map
      AgentConfig.lastSmoke = some (some 4) ∧
    (moveAgent louisState "Louis" "outside_smoking_area").2 = false :=
  ⟨C9_theorem louisState "Louis" (demoAgent "Louis") rfl, by decide⟩

/-! Valid-walk lemmas. -/

theorem isValidPath_iff (locs : Locs) (fl : Int) (a b : String) (p : List String) :
    isValidPath locs fl a b p = true ↔
      p.head? = some a ∧ p.getLast? = some b ∧ chainB (isEdge locs fl) p = true := by
  simp [isValidPath, Bool.and_eq_true, and_assoc]

theorem chainB_append_edge {α : Type} (f : α → α → Bool) (p : List α) (x n : α)
    (hl : p.getLast? = some x) (he : f x n = true) :
    chainB f p = true → chainB f (p ++ [n]) = true := by
  induction p with
  | nil => simp at hl
  | cons a rest ih =>
    intro hc
    cases rest with
    | nil =>
      simp at hl
      subst hl
      simp [chainB, he]
    | cons b rest2 =>
      rw [List.getLast?_cons_cons] at hl
      simp only [chainB, Bool.and_eq_true] at hc
      simpa [chainB, Bool.and_eq_true] using ⟨hc.1, ih hl hc.2⟩

theorem isValidPath_extend (locs : Locs) (fl : Int) (S l n : String)
    (q : List String) (hv : isValidPath locs fl S l q = true)
    (he : isEdge locs fl l n = true) :
    isValidPath locs fl S n (q ++ [n]) = true := by
  rw [isValidPath_iff] at hv ⊢
  obtain ⟨hh, hl, hc⟩ := hv
  refine ⟨?_, by simp, chainB_append_edge _ q l n hl he hc⟩
  cases q with
  | nil => simp at hh
  | cons a rest => simpa using hh

theorem isValidPath_single (locs : Locs) (fl : Int) (a : String) :
    isValidPath locs fl a a [a] = true := by
  simp [isValidPath, chainB]

/-! BFS soundness: whatever `findPath` returns is a valid floor-restricted
walk between its endpoints. -/

theorem expandStep_sound (locs : Locs) (fl : Int) (path : List String) :
    ∀ ns visited, ∀ e ∈ (expandStep locs fl path ns visited).2,
      ∃ n, e = (n, path ++ [n]) ∧ n ∈ ns ∧ floorOk locs fl n = true := by
  intro ns
  induction ns with
  | nil => intro visited e he; simp [expandStep] at he
  | cons n ns ih =>
    intro visited e he
    rw [expandStep] at he
    by_cases hv : visited.contains n
    · rw [if_pos hv] at he
      obtain ⟨m, hm⟩ := ih visited e he
      exact ⟨m, hm.1, List.mem_cons_of_mem _ hm.2.1, hm.2.2⟩
    · rw [if_neg hv] at he
      by_cases hf : floorOk locs fl n = true
      · rw [if_pos hf] at he
        rcases List.mem_cons.mp he with h | h
        · exact ⟨n, h, List.mem_cons_self _ _, hf⟩
        · obtain ⟨m, hm⟩ := ih (n :: visited) e h
          exact ⟨m, hm.1, List.mem_cons_of_mem _ hm.2.1, hm.2.2⟩
      · rw [if_neg hf] at he
        obtain ⟨m, hm⟩ := ih (n :: visited) e he
        exact ⟨m, hm.1, List.mem_cons_of_mem _ hm.2.1, hm.2.2⟩

theorem bfsAux_sound (locs : Locs) (fl : Int) (S T : String) :
    ∀ fuel Q V, (∀ e ∈ Q, isValidPath locs fl S e.1 e.2 = true) →
      bfsAux locs fl T fuel Q V ≠ [] →
      isValidPath locs fl S T (bfsAux locs fl T fuel Q V) = true := by
  intro fuel
  induction fuel with
  | zero => intro Q V _ hne; simp [bfsAux] at hne
  | succ fuel ih =>
    intro Q V hQ hne
    cases Q with
    | nil => simp [bfsAux] at hne
    | cons e rest =>
      obtain ⟨l, path⟩ := e
      rw [bfsAux] at hne ⊢
      by_cases ht : (l == T) = true
      · rw [if_pos ht] at hne ⊢
        have : l = T := by simpa using ht
        subst this
        exact hQ (l, path) (List.mem_cons_self _ _)
      · rw [if_neg (by simpa using ht)] at hne ⊢
        apply ih _ _ ?_ hne
        intro e2 he2
        rcases List.mem_append.mp he2 with h | h
        · exact hQ e2 (List.mem_cons_of_mem _ h)
        · obtain ⟨n, he, hn, hf⟩ := expandStep_sound locs fl path _ _ e2 h
          subst he
          refine isValidPath_extend locs fl S l n path
            (hQ (l, path) (List.mem_cons_self _ _)) ?_
          simp only [isEdge, Bool.and_eq_true, hf, and_true]
          simpa [connectionsOf] using hn

theorem findPath_sound (locs : Locs) (X Y : String) (xl : Location)
    (hx : locs.lookup X = some xl) (hne : findPath locs X Y ≠ []) :
    isValidPath locs xl.floor X Y (findPath locs X Y) = true := by
  unfold findPath at hne ⊢
  rw [hx] at hne ⊢
  cases hy : locs.lookup Y with
  | none =>
    rw [hy] at hne
    simp at hne
  | some yl =>
    rw [hy] at hne
    simp only at hne ⊢
    by_cases hxy : X = Y
    · subst hxy
      simp only [beq_self_eq_true, if_true]
      exact isValidPath_single locs xl.floor X
    · have hb : (X == Y) = false := by simpa using hxy
      rw [hb] at hne ⊢
      simp only [Bool.false_eq_true, if_false] at hne ⊢
      by_cases hfl : xl.floor = yl.floor
      · have hbn : (xl.floor != yl.floor) = false := by simp [hfl]
        rw [hbn] at hne ⊢
        simp only [Bool.false_eq_true, if_false] at hne ⊢
        apply bfsAux_sound locs xl.floor X Y _ _ _ ?_ hne
        intro e he
        rcases List.mem_singleton.mp he with rfl
        exact isValidPath_single locs xl.floor X
      · have hbn : (xl.floor != yl.floor) = true := by simpa using hfl
        rw [hbn] at hne
        simp at hne

/-- A successful `moveAgent` call: the agent existed, was idle at `cur`,
the destination differed and was accessible, the search found a route, and
the new state carries the route's tail with its length as progress. -/
theorem moveAgent_success_eq (s : SimState) (a t : String) (config : AgentConfig)
    (cur : String) (hc : s.agentsConfig.lookup a = some config)
    (hm : config.isMoving = false) (hpos : s.agentPositions a = some cur)
    (h : (moveAgent s a t).2 = true) :
    cur ≠ t ∧ canAccessLocation s.locations a t = true ∧
    findPath s.locations cur t ≠ [] ∧
    moveAgent s a t =
      ({ s with agentsConfig := updateEntry s.agentsConfig a (fun _ =>
          { config with
            isMoving := true
            movingTo := some t
            movementPath := some (findPath s.locations cur t).tail
            movementProgress := some ((findPath s.locations cur t).tail.length : Int) }) },
        true) := by
  unfold moveAgent at h ⊢
  rw [hc] at h ⊢
  simp only [hm, Bool.false_eq_true, if_false, hpos] at h ⊢
  by_cases hct : cur = t
  · subst hct
    simp at h
  · have hb : (some cur == some t) = false := by simpa using hct
    rw [hb] at h ⊢
    simp only [Bool.false_eq_true, if_false] at h ⊢
    by_cases hacc : canAccessLocation s.locations a t = true
    · simp only [hacc, Bool.not_true, Bool.false_eq_true, if_false] at h ⊢
      by_cases hemp : (findPath s.locations cur t).isEmpty = true
      · simp [hemp] at h
      · simp only [hemp, Bool.false_eq_true, if_false]
        exact ⟨hct, trivial, by simpa [List.isEmpty_iff] using hemp, trivial⟩
    · have hb2 : canAccessLocation s.locations a t = false := by
        simpa using hacc
      simp [hb2] at h

/-- Endpoint and length facts of a nonempty `findPath` result. -/
theorem findPath_endpoints (locs : Locs) (X Y : String) (xl : Location)
    (hx : locs.lookup X = some xl) (hne : findPath locs X Y ≠ []) :
    (findPath locs X Y).head? = some X ∧ (findPath locs X Y).getLast? = some Y ∧
    (X ≠ Y → 2 ≤ (findPath locs X Y).length) := by
  have hv := (isValidPath_iff _ _ _ _ _).mp (findPath_sound locs X Y xl hx hne)
  refine ⟨hv.1, hv.2.1, ?_⟩
  intro hXY
  rcases hp : findPath locs X Y with _ | ⟨a, rest⟩
  · exact absurd hp hne
  · cases rest with
    | nil =>
      rw [hp] at hv
      simp at hv
      exact absurd (hv.1.symm.trans hv.2.1) hXY
    | cons b rest2 => simp [hp]

/-- A nonempty `findPath` result implies both endpoints were known. -/
theorem findPath_lookup_of_ne (locs : Locs) (X Y : String)
    (h : findPath locs X Y ≠ []) :
    ∃ xl yl, locs.lookup X = some xl ∧ locs.lookup Y = some yl := by
  unfold findPath at h
  cases hx : locs.lookup X with
  | none => rw [hx] at h; simp at h
  | some xl =>
    cases hy : locs.lookup Y with
    | none => rw [hx, hy] at h; simp at h
    | some yl => exact ⟨xl, yl, rfl, rfl⟩

/-! Claim C5. -/

/-- C5: while EnRoute, `movementProgress` equals the length of the pending
`movementPath` and is strictly positive; the invariant is established by
every successful movement request, preserved by every hop advance, and the
transition to Idle happens exactly on the hop that consumes the last path
element (path and counter reach zero together). -/
theorem C5_theorem (s : SimState) (a : String) :
    (∀ t config cur, s.agentsConfig.lookup a = some config →
       config.isMoving = false → s.agentPositions a = some cur →
       (moveAgent s a t).2 = true →
       ∀ c2, (moveAgent s a t).1.agentsConfig.lookup a = some c2 →
         c2.isMoving = true ∧ enRouteInv c2) ∧
    (∀ config mp, s.agentsConfig.lookup a = some config →
       config.isMoving = true → config.movementPath = some mp →
       config.movementProgress = some (mp.length : Int) → mp ≠ [] →
       ∀ c2, (updateMovement s a).agentsConfig.lookup a = some c2 →
         enRouteInv c2 ∧
         (c2.isMoving = false ↔ mp.length = 1) ∧
         (c2.isMoving = true →
           c2.movementPath = some mp.tail ∧
           c2.movementProgress = some ((mp.length : Int) - 1))) := by
  constructor
  · intro t config cur hc hm hpos hsucc c2 hc2
    obtain ⟨hct, hacc, hne, heq⟩ :=
      moveAgent_success_eq s a t config cur hc hm hpos hsucc
    rw [heq] at hc2
    simp only at hc2
    rw [lookup_updateEntry_self, hc] at hc2
    simp only [Option.map_some'] at hc2
    obtain ⟨xl, yl, hx, hy⟩ := findPath_lookup_of_ne s.locations cur t hne
    have hlen := (findPath_endpoints s.locations cur t xl hx hne).2.2 hct
    have htl : 0 < (findPath s.locations cur t).tail.length := by
      rw [List.length_tail]
      omega
    cases hc2
    refine ⟨rfl, ?_⟩
    intro _
    exact ⟨(findPath s.locations cur t).tail, rfl, htl, rfl⟩
  · intro config mp hc hm hp hpr hne c2 hc2
    unfold updateMovement at hc2
    rw [hc] at hc2
    simp only [hm, Bool.not_true, Bool.false_eq_true, if_false] at hc2
    rw [hp] at hc2
    simp only at hc2
    cases mp with
    | nil => exact absurd rfl hne
    | cons x rest =>
      cases rest with
      | nil =>
        simp only [hpr, List.length_cons, List.length_nil] at hc2
        norm_num at hc2
        rw [lookup_updateEntry_self, hc] at hc2
        simp only [Option.map_some'] at hc2
        cases hc2
        refine ⟨?_, by simp, by simp⟩
        intro hfalse
        simp at hfalse
      | cons y rest2 =>
        have hcond : (decide ((config.movementProgress.getD 0) - 1 ≤ 0) ||
            (x :: y :: rest2).tail.isEmpty) = false := by
          rw [hpr]
          simp only [Option.getD_some, List.tail_cons, List.isEmpty_cons,
            Bool.or_false]
          rw [decide_eq_false_iff_not]
          simp only [List.length_cons]
          push_cast
          omega
        rw [hcond] at hc2
        simp only [Bool.false_eq_true, if_false] at hc2
        rw [lookup_updateEntry_self, hc] at hc2
        simp only [Option.map_some'] at hc2
        cases hc2
        constructor
        · intro _
          refine ⟨(x :: y :: rest2).tail, rfl, by simp, ?_⟩
          simp only [hpr, List.tail_cons, List.length_cons, Option.getD_some]
          congr 1
          push_cast
          ring_nf
        · constructor
          · simp [hm]
          · intro _
            refine ⟨rfl, ?_⟩
            simp only [hpr]
            rfl

/-- C5 witness: establishment on Louis's A-to-C request, preservation and
the exact Idle transition on his final pending hop. -/
theorem C5_witness :
    (∀ c2, (moveAgent louisState "Louis" "C").1.agentsConfig.lookup "Louis" = some c2 →
       c2.isMoving = true ∧ enRouteInv c2) ∧
    (∀ c2, (updateMovement busyState "Louis").agentsConfig.lookup "Louis" = some c2 →
       enRouteInv c2 ∧
       (c2.isMoving = false ↔ (["C"] : List String).length = 1) ∧
       (c2.isMoving = true →
         c2.movementPath = some (["C"] : List String).tail ∧
         c2.movementProgress = some (((["C"] : List String).length : Int) - 1))) :=
  ⟨fun c2 => (C5_theorem louisState "Louis").1 "C" (demoAgent "Louis") "A"
      rfl rfl rfl (by decide) c2,
   fun c2 => (C5_theorem busyState "Louis").2 _ ["C"] rfl rfl rfl (by decide)
      (by decide) c2⟩

/-! Claim C4: a started journey takes exactly one hop per tick. -/

theorem updateMovement_last_facts (s : SimState) (a : String) (config : AgentConfig)
    (z dest : String) (hc : s.agentsConfig.lookup a = some config)
    (hm : config.isMoving = true) (ht : config.movingTo = some dest)
    (hp : config.movementPath = some [z])
    (hpr : config.movementProgress = some ((([z] : List String).length : Int))) :
    ((updateMovement s a).agentsConfig.lookup a).map AgentConfig.isMoving =
      some false ∧
    (updateMovement s a).agentPositions a = some dest := by
  unfold updateMovement
  rw [hc]
  simp only [hm, Bool.not_true, Bool.false_eq_true, if_false]
  rw [hp]
  simp only [hpr, List.length_cons, List.length_nil, List.head?_cons,
    List.tail_cons, Option.getD_some, List.isEmpty_nil, Bool.or_true]
  norm_num
  rw [lookup_updateEntry_self, hc]
  simp [ht]

theorem updateMovement_mid_facts (s : SimState) (a : String) (config : AgentConfig)
    (z w : String) (rest : List String) (hc : s.agentsConfig.lookup a = some config)
    (hm : config.isMoving = true)
    (hp : config.movementPath = some (z :: w :: rest))
    (hpr : config.movementProgress = some (((z :: w :: rest).length : Int))) :
    (updateMovement s a).agentsConfig.lookup a =
      some { config with
        movementPath := some (w :: rest)
        movementProgress := some (((w :: rest).length : Int)) } ∧
    (updateMovement s a).agentPositions a = some z := by
  unfold updateMovement
  rw [hc]
  simp only [hm, Bool.not_true, Bool.false_eq_true, if_false]
  rw [hp]
  simp only [hpr, List.head?_cons, List.tail_cons, Option.getD_some,
    List.isEmpty_cons, Bool.or_false, decide_eq_true_eq, List.length_cons]
  rw [if_neg (by push_cast; omega)]
  constructor
  · rw [lookup_updateEntry_self, hc]
    simp only [Option.map_some']
    congr 2
    push_cast
    ring_nf
  · simp

theorem chainB_getD {α : Type} (f : α → α → Bool) (d : α) :
    ∀ p : List α, chainB f p = true →
      ∀ i, i + 1 < p.length → f (p.getD i d) (p.getD (i + 1) d) = true := by
  intro p
  induction p with
  | nil => intro _ i h; simp at h
  | cons a rest ih =>
    intro hc i h
    cases rest with
    | nil => simp at h
    | cons b rest2 =>
      simp only [chainB, Bool.and_eq_true] at hc
      cases i with
      | zero => simpa using hc.1
      | succ j =>
        have := ih hc.2 j (by simpa using h)
        simpa [List.getD_cons_succ] using this

/-- Iterating `updateMovement` over a pending path of `mp.length` hops:
the agent stays EnRoute until the final hop, traces the path one element per
tick, and lands Idle on the destination after exactly `mp.length` ticks. -/
theorem updateMovement_run (a dest : String) :
    ∀ (mp : List String) (s : SimState) (config : AgentConfig) (x0 : String),
      s.agentsConfig.lookup a = some config →
      config.isMoving = true →
      config.movingTo = some dest →
      config.movementPath = some mp →
      config.movementProgress = some ((mp.length : Int)) →
      s.agentPositions a = some x0 →
      mp ≠ [] →
      (x0 :: mp).getLast? = some dest →
      ((((fun t => updateMovement t a)^[mp.length] s).agentsConfig.lookup a).map
          AgentConfig.isMoving = some false ∧
        ((fun t => updateMovement t a)^[mp.length] s).agentPositions a = some dest) ∧
      (∀ i, i < mp.length →
        (((fun t => updateMovement t a)^[i] s).agentsConfig.lookup a).map
          AgentConfig.isMoving = some true) ∧
      (∀ i, i < mp.length →
        ((fun t => updateMovement t a)^[i + 1] s).agentPositions a =
          some ((x0 :: mp).getD (i + 1) "")) := by
  intro mp
  induction mp with
  | nil =>
    intro s config x0 _ _ _ _ _ _ hne _
    exact absurd rfl hne
  | cons z mp2 ih =>
    intro s config x0 hc hm ht hp hpr hpos _ hlast
    cases mp2 with
    | nil =>
      have hlf := updateMovement_last_facts s a config z dest hc hm ht hp hpr
      have hz : z = dest := by simpa using hlast
      refine ⟨?_, ?_, ?_⟩
      · simpa [Function.iterate_one] using hlf
      · intro i hi
        have hi0 : i = 0 := by simpa using hi
        subst hi0
        simp [Function.iterate_zero, hc, hm]
      · intro i hi
        have hi0 : i = 0 := by simpa using hi
        subst hi0
        have := hlf.2
        simpa [Function.iterate_one, hz] using this
    | cons w rest =>
      have hmf := updateMovement_mid_facts s a config z w rest hc hm hp hpr
      set s1 := updateMovement s a with hs1
      have hstep : ∀ n, (fun t => updateMovement t a)^[n + 1] s =
          (fun t => updateMovement t a)^[n] s1 := by
        intro n
        rw [Function.iterate_succ_apply]
      have ihr := ih s1
        { config with
          movementPath := some (w :: rest)
          movementProgress := some (((w :: rest).length : Int)) } z
        hmf.1 hm ht rfl rfl hmf.2 (by simp)
        (by simpa [List.getLast?_cons_cons] using hlast)
      refine ⟨?_, ?_, ?_⟩
      · have h1 := ihr.1
        constructor
        · rw [show (z :: w :: rest).length = (w :: rest).length + 1 by simp,
            hstep ((w :: rest).length)]
          exact h1.1
        · rw [show (z :: w :: rest).length = (w :: rest).length + 1 by simp,
            hstep ((w :: rest).length)]
          exact h1.2
      · intro i hi
        cases i with
        | zero => simp [Function.iterate_zero, hc, hm]
        | succ j =>
          rw [hstep j]
          exact ihr.2.1 j (by simpa using hi)
      · intro i hi
        cases i with
        | zero =>
          have := hmf.2
          simpa [Function.iterate_one] using this
        | succ j =>
          rw [hstep (j + 1)]
          have := ihr.2.2 j (by simpa using hi)
          simpa [List.getD_cons_succ] using this

/-- C4: when an Idle agent's movement request is accepted with a returned
path of N hops (N = length of the `findPath` result minus one, its BFS hop
count), iterating the per-tick advance exactly N times leaves the agent Idle
with its position equal to the destination; before that it stays EnRoute,
and each tick moves it to the next path element, which is always one stored
graph hop (a listed connection) away from the previous position. -/
theorem C4_theorem (s : SimState) (a dest : String) (config : AgentConfig)
    (cur : String) (hc : s.agentsConfig.lookup a = some config)
    (hm : config.isMoving = false) (hpos : s.agentPositions a = some cur)
    (hsucc : (moveAgent s a dest).2 = true) :
    ((((fun t => updateMovement t a)^[(findPath s.locations cur dest).tail.length]
        (moveAgent s a dest).1).agentsConfig.lookup a).map AgentConfig.isMoving =
        some false ∧
      ((fun t => updateMovement t a)^[(findPath s.locations cur dest).tail.length]
        (moveAgent s a dest).1).agentPositions a = some dest) ∧
    (∀ i, i < (findPath s.locations cur dest).tail.length →
      (((fun t => updateMovement t a)^[i]
          (moveAgent s a dest).1).agentsConfig.lookup a).map AgentConfig.isMoving =
        some true) ∧
    (∀ i, i < (findPath s.locations cur dest).tail.length →
      ((fun t => updateMovement t a)^[i + 1] (moveAgent s a dest).1).agentPositions a =
        some ((findPath s.locations cur dest).getD (i + 1) "") ∧
      ((findPath s.locations cur dest).getD (i + 1) "") ∈
        connectionsOf s.locations ((findPath s.locations cur dest).getD i "")) := by
  obtain ⟨hct, hacc, hne, heq⟩ :=
    moveAgent_success_eq s a dest config cur hc hm hpos hsucc
  obtain ⟨xl, yl, hx, hy⟩ := findPath_lookup_of_ne s.locations cur dest hne
  have hvalid := findPath_sound s.locations cur dest xl hx hne
  rw [isValidPath_iff] at hvalid
  obtain ⟨hhead, hlast, hchain⟩ := hvalid
  have hlen := (findPath_endpoints s.locations cur dest xl hx hne).2.2 hct
  have hcons : cur :: (findPath s.locations cur dest).tail =
      findPath s.locations cur dest := by
    cases hrr : findPath s.locations cur dest with
    | nil => exact absurd hrr hne
    | cons u v =>
      rw [hrr] at hhead
      simp only [List.head?_cons, Option.some.injEq] at hhead
      simp [hhead]
  have htail : (findPath s.locations cur dest).tail ≠ [] := by
    have : 0 < (findPath s.locations cur dest).tail.length := by
      rw [List.length_tail]
      omega
    exact List.ne_nil_of_length_pos this
  have hlookup : (moveAgent s a dest).1.agentsConfig.lookup a =
      some { config with
        isMoving := true
        movingTo := some dest
        movementPath := some (findPath s.locations cur dest).tail
        movementProgress := some (((findPath s.locations cur dest).tail.length : Int)) } := by
    rw [heq]
    simp only
    rw [lookup_updateEntry_self, hc]
    rfl
  have hpos2 : (moveAgent s a dest).1.agentPositions a = some cur := by
    rw [heq]
    exact hpos
  have hrun := updateMovement_run a dest (findPath s.locations cur dest).tail
    (moveAgent s a dest).1 _ cur hlookup rfl rfl rfl rfl hpos2 htail
    (by rw [hcons]; exact hlast)
  refine ⟨hrun.1, hrun.2.1, ?_⟩
  intro i hi
  constructor
  · have := hrun.2.2 i hi
    rwa [hcons] at this
  · have hip : i + 1 < (findPath s.locations cur dest).length := by
      rw [List.length_tail] at hi
      omega
    have hedge := chainB_getD (isEdge s.locations xl.floor) ""
      (findPath s.locations cur dest) hchain i hip
    simp only [isEdge, Bool.and_eq_true] at hedge
    simpa using hedge.1

/-- C4 witness: Louis's two-hop journey A to C over the line graph. -/
theorem C4_witness :
    ((((fun t => updateMovement t "Louis")^[(findPath louisState.locations "A" "C").tail.length]
        (moveAgent louisState "Louis" "C").1).agentsConfig.lookup "Louis").map
        AgentConfig.isMoving = some false ∧
      ((fun t => updateMovement t "Louis")^[(findPath louisState.locations "A" "C").tail.length]
        (moveAgent louisState "Louis" "C").1).agentPositions "Louis" = some "C") ∧
    (∀ i, i < (findPath louisState.locations "A" "C").tail.length →
      (((fun t => updateMovement t "Louis")^[i]
          (moveAgent louisState "Louis" "C").1).agentsConfig.lookup "Louis").map
        AgentConfig.isMoving = some true) ∧
    (∀ i, i < (findPath louisState.locations "A" "C").tail.length →
      ((fun t => updateMovement t "Louis")^[i + 1]
          (moveAgent louisState "Louis" "C").1).agentPositions "Louis" =
        some ((findPath louisState.locations "A" "C").getD (i + 1) "") ∧
      ((findPath louisState.locations "A" "C").getD (i + 1) "") ∈
        connectionsOf louisState.locations
          ((findPath louisState.locations "A" "C").getD i "")) :=
  C4_theorem louisState "Louis" "C" (demoAgent "Louis") "A" rfl rfl rfl (by decide)

/-! Claims C7 and C8: the tick scheduler's selection and rotation. -/

theorem rotatedAgents_eq_rotate (cfg : List (String × AgentConfig)) (t : Nat) :
    rotatedAgents cfg t = (getActiveAgents cfg).rotate t := by
  unfold rotatedAgents
  by_cases h : getActiveAgents cfg = []
  · simp [h]
  · have hlen : 0 < (getActiveAgents cfg).length := List.length_pos.mpr h
    rw [← List.rotate_mod]
    exact (List.rotate_eq_drop_append_take (le_of_lt (Nat.mod_lt _ hlen))).symm

theorem getActiveAgents_nodup (cfg : List (String × AgentConfig))
    (h : (cfg.map Prod.fst).Nodup) : (getActiveAgents cfg).Nodup := by
  have hsub : (getActiveAgents cfg).Sublist (cfg.map Prod.fst) :=
    List.Sublist.map Prod.fst (List.filter_sublist cfg)
  exact hsub.nodup h

/-- C7: on every tick with a non-empty active set, whatever the random draws
decide, the selection returns at least one agent, repeats no agent, and
reports the chosen agents in rotated enumeration order (a sublist of the
rotation); with an empty active set the selection is empty. -/
theorem C7_theorem (cfg : List (String × AgentConfig)) (t : Nat) (r : TickRandom)
    (hnd : (cfg.map Prod.fst).Nodup) :
    (getActiveAgents cfg ≠ [] →
      selectAgentsForTick cfg t r ≠ [] ∧
      (selectAgentsForTick cfg t r).Nodup ∧
      (selectAgentsForTick cfg t r).Sublist (rotatedAgents cfg t)) ∧
    (getActiveAgents cfg = [] → selectAgentsForTick cfg t r = []) := by
  have hrnd : (rotatedAgents cfg t).Nodup := by
    rw [rotatedAgents_eq_rotate]
    exact List.nodup_rotate.mpr (getActiveAgents_nodup cfg hnd)
  have hrw : selectAgentsForTick cfg t r =
      if ((getActiveAgents cfg).length == 0) = true then []
      else
        if ((List.map Prod.snd (List.filter (fun p => r.keep p.1)
            (List.take (if r.highDraw then 5 else if r.midDraw then 3 else 2)
              (rotatedAgents cfg t)).enum)).length == 0) = true
        then [(rotatedAgents cfg t).headD ""]
        else List.map Prod.snd (List.filter (fun p => r.keep p.1)
            (List.take (if r.highDraw then 5 else if r.midDraw then 3 else 2)
              (rotatedAgents cfg t)).enum) := rfl
  constructor
  · intro hne
    have hlen : 0 < (getActiveAgents cfg).length := List.length_pos.mpr hne
    have hrlen : 0 < (rotatedAgents cfg t).length := by
      rw [rotatedAgents_eq_rotate, List.length_rotate]
      exact hlen
    have hb : ((getActiveAgents cfg).length == 0) = false := by
      simpa using Nat.pos_iff_ne_zero.mp hlen
    rw [hrw, hb]
    simp only [Bool.false_eq_true, if_false]
    set cnt : Nat := if r.highDraw then 5 else if r.midDraw then 3 else 2 with hcnt
    set sel := List.map Prod.snd (List.filter (fun p => r.keep p.1)
      (List.take cnt (rotatedAgents cfg t)).enum) with hsel
    have hsub : sel.Sublist (rotatedAgents cfg t) := by
      have h1 : sel.Sublist ((List.take cnt (rotatedAgents cfg t)).enum.map Prod.snd) :=
        List.Sublist.map Prod.snd (List.filter_sublist _)
      rw [List.enum_map_snd] at h1
      exact h1.trans (List.take_sublist _ _)
    by_cases hs : (sel.length == 0) = true
    · rw [if_pos hs]
      cases hrr : rotatedAgents cfg t with
      | nil => rw [hrr] at hrlen; simp at hrlen
      | cons hd tl =>
        refine ⟨by simp, by simp, ?_⟩
        simp only [List.headD_cons]
        exact (List.nil_sublist tl).cons₂ hd
    · rw [if_neg hs]
      refine ⟨?_, hsub.nodup hrnd, hsub⟩
      intro hnil
      rw [hnil] at hs
      simp at hs
  · intro hemp
    rw [hrw, if_pos (by simp [hemp])]

/-- First slot of the tick's rotation: index `t % length` of the active
list. -/
theorem rotatedAgents_headD (cfg : List (String × AgentConfig)) (t : Nat)
    (hlen : 0 < (getActiveAgents cfg).length) :
    (rotatedAgents cfg t).headD "" =
      (getActiveAgents cfg).getD (t % (getActiveAgents cfg).length) "" := by
  have hoff : t % (getActiveAgents cfg).length < (getActiveAgents cfg).length :=
    Nat.mod_lt _ hlen
  have hrw : rotatedAgents cfg t =
      List.drop (t % (getActiveAgents cfg).length) (getActiveAgents cfg) ++
        List.take (t % (getActiveAgents cfg).length) (getActiveAgents cfg) := rfl
  rw [hrw, List.drop_eq_getElem_cons hoff]
  simp [List.getD_eq_getElem?_getD, List.getElem?_eq_getElem hoff]

/-- C8: with a stable non-empty active set A, over any window of |A|
consecutive tick values each agent of A occupies the first slot of the
rotation in exactly one tick of the window. -/
theorem C8_theorem (cfg : List (String × AgentConfig)) (t0 : Nat) (a : String)
    (hnd : (cfg.map Prod.fst).Nodup) (ha : a ∈ getActiveAgents cfg) :
    ((List.range (getActiveAgents cfg).length).filter
      (fun k => (rotatedAgents cfg (t0 + k)).headD "" == a)).length = 1 := by
  set A := getActiveAgents cfg with hA
  set n := A.length with hn
  have hand : A.Nodup := getActiveAgents_nodup cfg hnd
  have hlen : 0 < n := List.length_pos.mpr (List.ne_nil_of_mem ha)
  have hidx : A.indexOf a < n := List.indexOf_lt_length.mpr ha
  set idx := A.indexOf a with hidxdef
  have hgetidx : A[idx] = a := List.getElem_indexOf hidx
  have hle : t0 % n ≤ idx + n := le_of_lt (lt_of_lt_of_le (Nat.mod_lt _ hlen) (by omega))
  set k0 := (idx + n - t0 % n) % n with hk0def
  have hk0lt : k0 < n := Nat.mod_lt _ hlen
  have hk0 : (t0 + k0) % n = idx := by
    rw [hk0def, Nat.add_mod_mod, ← Nat.mod_add_mod, Nat.add_sub_cancel' hle,
      Nat.add_mod_right, Nat.mod_eq_of_lt hidx]
  have huniq : ∀ k1 k2, k1 < n → k2 < n → (t0 + k1) % n = (t0 + k2) % n → k1 = k2 := by
    intro k1 k2 h1 h2 heq
    have hm : (t0 + k1) ≡ (t0 + k2) [MOD n] := heq
    have hc := Nat.ModEq.add_left_cancel' t0 hm
    have hc2 : k1 % n = k2 % n := hc
    rwa [Nat.mod_eq_of_lt h1, Nat.mod_eq_of_lt h2] at hc2
  have hgetD : ∀ j, ∀ hj : j < A.length, A.getD j "" = A[j] := by
    intro j hj
    rw [List.getD_eq_getElem?_getD, List.getElem?_eq_getElem hj]
    rfl
  have hcongr : ∀ k ∈ List.range n,
      ((rotatedAgents cfg (t0 + k)).headD "" == a) = (k == k0) := by
    intro k hk
    have hklt : k < n := List.mem_range.mp hk
    rw [rotatedAgents_headD cfg (t0 + k) hlen]
    have hmodlt : (t0 + k) % n < n := Nat.mod_lt _ hlen
    have hmodlt2 : (t0 + k) % n < A.length := by omega
    by_cases hkk : k = k0
    · subst hkk
      rw [hk0, hgetD idx (by omega)]
      simp [hgetidx]
    · have hne2 : (t0 + k) % n ≠ idx := by
        intro hcontra
        exact hkk (huniq k k0 hklt hk0lt (hcontra.trans hk0.symm))
      have hgoal : A.getD ((t0 + k) % n) "" ≠ a := by
        rw [hgetD _ hmodlt2]
        intro hcontra
        apply hne2
        exact (List.Nodup.getElem_inj_iff hand).mp (hcontra.trans hgetidx.symm)
      have h1 : (A.getD ((t0 + k) % n) "" == a) = false := by simpa using hgoal
      have h2 : (k == k0) = false := by simpa using hkk
      rw [h1, h2]
  rw [List.filter_congr hcongr]
  have : (List.filter (fun k => k == k0) (List.range n)).length =
      List.countP (fun k => k == k0) (List.range n) :=
    (List.countP_eq_length_filter _ _).symm
  rw [this]
  have hcount : List.countP (fun k => k == k0) (List.range n) =
      List.count k0 (List.range n) := rfl
  rw [hcount]
  exact List.count_eq_one_of_mem (List.nodup_range n) (List.mem_range.mpr hk0lt)

/-- C7 witness: three active agents at tick 5 with draws that drop every
candidate still yield a singleton selection in rotated order. -/
theorem C7_witness :
    (getActiveAgents trioConfig ≠ [] →
      selectAgentsForTick trioConfig 5 ⟨true, false, fun _ => false⟩ ≠ [] ∧
      (selectAgentsForTick trioConfig 5 ⟨true, false, fun _ => false⟩).Nodup ∧
      (selectAgentsForTick trioConfig 5 ⟨true, false, fun _ => false⟩).Sublist
        (rotatedAgents trioConfig 5)) ∧
    (getActiveAgents trioConfig = [] →
      selectAgentsForTick trioConfig 5 ⟨true, false, fun _ => false⟩ = []) :=
  C7_theorem trioConfig 5 ⟨true, false, fun _ => false⟩ (by decide)

/-- C8 witness: Fred heads the rotation exactly once over three consecutive
ticks starting after tick 7. -/
theorem C8_witness :
    ((List.range (getActiveAgents trioConfig).length).filter
      (fun k => (rotatedAgents trioConfig (7 + k)).headD "" == "Fred")).length = 1 :=
  C8_theorem trioConfig 7 "Fred" (by decide) (by decide)

/-! Claim C10: room assignment. -/

theorem lookup_mem {α : Type} {l : List (String × α)} {k : String} {v : α}
    (h : l.lookup k = some v) : (k, v) ∈ l := by
  induction l with
  | nil => simp [List.lookup] at h
  | cons p t ih =>
    obtain ⟨k1, v1⟩ := p
    rw [List.lookup_cons] at h
    by_cases hk : (k == k1) = true
    · rw [hk] at h
      simp only at h
      cases h
      have : k = k1 := by simpa using hk
      subst this
      exact List.mem_cons_self _ _
    · have hk2 : (k == k1) = false := by simpa using hk
      rw [hk2] at h
      exact List.mem_cons_of_mem _ (ih h)

theorem two_mem_filter_length {α : Type} [DecidableEq α] {l : List α} {p : α → Bool}
    {x y : α} (hx : x ∈ l) (hy : y ∈ l) (hpx : p x = true) (hpy : p y = true)
    (hxy : x ≠ y) : 2 ≤ (l.filter p).length := by
  have hx2 : x ∈ l.filter p := List.mem_filter.mpr ⟨hx, hpx⟩
  have hy2 : y ∈ l.filter p := List.mem_filter.mpr ⟨hy, hpy⟩
  have hy3 : y ∈ (l.filter p).erase x := (List.mem_erase_of_ne (Ne.symm hxy)).mpr hy2
  have h1 : 0 < ((l.filter p).erase x).length := List.length_pos.mpr (List.ne_nil_of_mem hy3)
  have h2 : ((l.filter p).erase x).length = (l.filter p).length - 1 :=
    List.length_erase_of_mem hx2
  omega

theorem find?_eq_of_filter_length_le_one {α : Type} [DecidableEq α] {l : List α}
    {p : α → Bool} {x : α} (hle : (l.filter p).length ≤ 1) (hx : x ∈ l)
    (hp : p x = true) : l.find? p = some x := by
  induction l with
  | nil => simp at hx
  | cons a t ih =>
    by_cases hpa : p a = true
    · rw [List.find?_cons_of_pos _ hpa]
      rcases List.mem_cons.mp hx with rfl | hxt
      · rfl
      · by_cases hax : a = x
        · rw [hax]
        · exfalso
          have : 2 ≤ ((a :: t).filter p).length :=
            two_mem_filter_length (List.mem_cons_self a t)
              (List.mem_cons_of_mem _ hxt) hpa hp hax
          omega
    · rw [List.find?_cons_of_neg _ hpa]
      have hxt : x ∈ t := by
        rcases List.mem_cons.mp hx with rfl | hxt
        · exact absurd hp hpa
        · exact hxt
      apply ih ?_ hxt
      rw [List.filter_cons_of_neg (by simpa using hpa)] at hle
      exact hle

theorem updateEntry_keys {α : Type} (l : List (String × α)) (k : String) (f : α → α) :
    (updateEntry l k f).map Prod.fst = l.map Prod.fst := by
  unfold updateEntry
  rw [List.map_map]
  apply List.map_congr_left
  intro p _
  by_cases h : p.1 = k
  · simp [h]
  · simp [h]

/-- Counting owned entries through an `updateEntry` whose rewrite never
produces ownership by `b`: the count cannot grow. -/
theorem ownedCount_updateEntry_le {l : Locs} {k : String} {f : Location → Location}
    (b : String) (hf : ∀ loc, (f loc).owner ≠ some b) :
    ownedCount (updateEntry l k f) b ≤ ownedCount l b := by
  unfold ownedCount updateEntry
  rw [← List.countP_eq_length_filter, ← List.countP_eq_length_filter,
    List.countP_map]
  apply List.countP_mono_left
  intro x _ hx
  simp only [Function.comp] at hx
  by_cases hk : (x.1 == k) = true
  · rw [if_pos hk] at hx
    simp only at hx
    have := hf x.2
    simp only [beq_iff_eq] at hx
    exact absurd hx this
  · rw [if_neg hk] at hx
    exact hx

/-- C10: `assignRoom` preserves the at-most-one-room-per-agent invariant;
a successful call makes the agent own and lock the target room and clears
and unlocks the room it previously owned; unknown agents, unknown rooms and
non-private rooms are refused with nothing mutated. -/
theorem C10_theorem (s : SimState) (a room : String)
    (hnd : (s.locations.map Prod.fst).Nodup)
    (hinv : ∀ b, ownedCount s.locations b ≤ 1) :
    (s.agentsConfig.lookup a = none → assignRoom s a room = (s, false)) ∧
    (s.locations.lookup room = none → assignRoom s a room = (s, false)) ∧
    (∀ rm, s.locations.lookup room = some rm → rm.is_private_room = false →
      assignRoom s a room = (s, false)) ∧
    (∀ rm, (s.agentsConfig.lookup a).isSome → s.locations.lookup room = some rm →
      rm.is_private_room = true →
      (assignRoom s a room).2 = true ∧
      (assignRoom s a room).1.locations.lookup room =
        some { rm with owner := some a, is_locked := true } ∧
      (∀ prev pl, prev ≠ room → s.locations.lookup prev = some pl →
        pl.owner = some a →
        (assignRoom s a room).1.locations.lookup prev =
          some { pl with owner := none, is_locked := false }) ∧
      (∀ b, ownedCount (assignRoom s a room).1.locations b ≤ 1)) := by
  refine ⟨?_, ?_, ?_, ?_⟩
  · intro h
    unfold assignRoom
    rw [h]
  · intro h
    unfold assignRoom
    cases s.agentsConfig.lookup a with
    | none => rfl
    | some _ => rw [h]
  · intro rm hr hpriv
    unfold assignRoom
    cases s.agentsConfig.lookup a with
    | none => rfl
    | some _ =>
      rw [hr]
      simp [hpriv]
  · intro rm hagent hr hpriv
    have heq : assignRoom s a room =
        ({ s with locations := assignedLocs s.locations a room }, true) := by
      unfold assignRoom
      cases hag : s.agentsConfig.lookup a with
      | none => rw [hag] at hagent; simp at hagent
      | some _ =>
        rw [hr]
        simp [hpriv]
    have hassign : assignedLocs s.locations a room =
        updateEntry (clearPreviousOwned s.locations a) room
          (fun l => { l with owner := some a, is_locked := true }) := rfl
    have hkeys1 : (clearPreviousOwned s.locations a).map Prod.fst =
        s.locations.map Prod.fst := by
      unfold clearPreviousOwned
      cases (s.locations.find? (fun p => p.2.owner == some a)).map Prod.fst with
      | none => rfl
      | some prev => exact updateEntry_keys s.locations prev _
    refine ⟨by rw [heq], ?_, ?_, ?_⟩
    · rw [heq]
      simp only
      rw [hassign, lookup_updateEntry_self]
      unfold clearPreviousOwned
      cases (s.locations.find? (fun p => p.2.owner == some a)).map Prod.fst with
      | none =>
        rw [hr]
        rfl
      | some prev =>
        by_cases hpr : prev = room
        · subst hpr
          rw [lookup_updateEntry_self, hr]
          rfl
        · rw [lookup_updateEntry_ne _ _ _ _ (Ne.symm hpr), hr]
          rfl
    · intro prev pl hprroom hlprev hplown
      have hmem : (prev, pl) ∈ s.locations := lookup_mem hlprev
      have hfind : s.locations.find? (fun p => p.2.owner == some a) =
          some (prev, pl) := by
        apply find?_eq_of_filter_length_le_one ?_ hmem (by simp [hplown])
        exact hinv a
      rw [heq]
      simp only
      rw [hassign, lookup_updateEntry_ne _ _ _ _ hprroom]
      unfold clearPreviousOwned
      rw [hfind]
      simp only [Option.map_some']
      rw [lookup_updateEntry_self, hlprev]
      rfl
    · intro b
      rw [heq]
      simp only
      rw [hassign]
      by_cases hba : b = a
      · subst hba
        have hstray : ∀ x, x ∈ clearPreviousOwned s.locations b →
            (x.1 == room) = false → (x.2.owner == some b) = false := by
          intro x hx hxr
          unfold clearPreviousOwned at hx
          cases hfind : s.locations.find? (fun p => p.2.owner == some b) with
          | none =>
            rw [hfind] at hx
            simp only [Option.map_none'] at hx
            have := List.find?_eq_none.mp hfind x hx
            simpa using this
          | some e =>
            rw [hfind] at hx
            simp only [Option.map_some'] at hx
            unfold updateEntry at hx
            obtain ⟨y, hy, hxy⟩ := List.mem_map.mp hx
            by_cases hyk : (y.1 == e.1) = true
            · rw [if_pos hyk] at hxy
              subst hxy
              simp
            · rw [if_neg hyk] at hxy
              by_contra hown
              have hown2 : (y.2.owner == some b) = true := by
                rw [hxy]
                cases hq : (x.2.owner == some b) with
                | true => rfl
                | false => exact absurd hq hown
              have hpe : (e.2.owner == some b) = true := by
                have := List.find?_some hfind
                simpa using this
              have hme := List.mem_of_find?_eq_some hfind
              have hye : y ≠ e := by
                intro hcontra
                rw [hcontra] at hyk
                simp at hyk
              have h2m := two_mem_filter_length
                (p := fun p => p.2.owner == some b) hy hme hown2 hpe hye
              have hinvb := hinv b
              unfold ownedCount at hinvb
              omega
        unfold ownedCount
        rw [← List.countP_eq_length_filter]
        unfold updateEntry
        rw [List.countP_map]
        have hcount : List.countP
            ((fun p => p.2.owner == some b) ∘ fun p =>
              if p.1 == room then (p.1, { p.2 with owner := some b, is_locked := true })
              else p) (clearPreviousOwned s.locations b) =
            List.countP (fun p => p.1 == room) (clearPreviousOwned s.locations b) := by
          apply List.countP_congr
          intro x hx
          simp only [Function.comp]
          by_cases hk : (x.1 == room) = true
          · simp [hk]
          · have hk2 : (x.1 == room) = false := by simpa using hk
            rw [if_neg hk, hstray x hx hk2, hk2]
        rw [hcount]
        have hc2 : List.countP (fun p => p.1 == room)
            (clearPreviousOwned s.locations b) =
            List.count room ((clearPreviousOwned s.locations b).map Prod.fst) := by
          rw [List.count, List.countP_map]
          rfl
        rw [hc2, hkeys1]
        exact List.nodup_iff_count_le_one.mp hnd room
      · have h2 : ownedCount (updateEntry (clearPreviousOwned s.locations a) room
            (fun l => { l with owner := some a, is_locked := true })) b ≤
            ownedCount (clearPreviousOwned s.locations a) b :=
          ownedCount_updateEntry_le b (by intro loc; simp [Ne.symm hba])
        have h1 : ownedCount (clearPreviousOwned s.locations a) b ≤
            ownedCount s.locations b := by
          unfold clearPreviousOwned
          cases (s.locations.find? (fun p => p.2.owner == some a)).map Prod.fst with
          | none => exact le_refl _
          | some prev =>
            exact ownedCount_updateEntry_le b (by intro loc; simp)
        exact le_trans h2 (le_trans h1 (hinv b))

/-- C10 witness: reassigning Louis from roomX to roomY moves ownership and
the lock, keeps the at-most-one invariant, and the failure branches refuse. -/
theorem C10_witness :
    ((roomState.agentsConfig.lookup "Ghost" = none →
        assignRoom roomState "Ghost" "roomY" = (roomState, false)) ∧
      (roomState.locations.lookup "roomZ" = none →
        assignRoom roomState "Louis" "roomZ" = (roomState, false))) ∧
    ((assignRoom roomState "Louis" "roomY").2 = true ∧
      (assignRoom roomState "Louis" "roomY").1.locations.lookup "roomY" =
        some { demoLoc 1 [] true none with owner := some "Louis", is_locked := true } ∧
      (∀ b, ownedCount (assignRoom roomState "Louis" "roomY").1.locations b ≤ 1)) := by
  have hinvw : ∀ b, ownedCount roomState.locations b ≤ 1 := by
    intro b
    by_cases hb : "Louis" = b
    · subst hb
      decide
    · simp [ownedCount, roomState, louisState, demoLoc, hb]
  have h1 := C10_theorem roomState "Louis" "roomY" (by decide) hinvw
  have h2 := C10_theorem roomState "Ghost" "roomY" (by decide) hinvw
  have h3 := C10_theorem roomState "Louis" "roomZ" (by decide) hinvw
  have hs := h1.2.2.2 (demoLoc 1 [] true none) (by decide) (by decide) (by decide)
  exact ⟨⟨fun h => h2.1 h, fun h => h3.2.1 h⟩, hs.1, hs.2.1, hs.2.2.2⟩

/-! Claim C3: BFS shortest-path machinery — index facts about valid walks. -/

theorem isValidPath_ne_nil {locs : Locs} {fl : Int} {a b : String} {p : List String}
    (hv : isValidPath locs fl a b p = true) : p ≠ [] := by
  rw [isValidPath_iff] at hv
  intro h
  rw [h] at hv
  simp at hv

theorem isValidPath_getD_zero {locs : Locs} {fl : Int} {a b : String} {p : List String}
    (hv : isValidPath locs fl a b p = true) : p.getD 0 "" = a := by
  rw [isValidPath_iff] at hv
  have h := hv.1
  rw [List.head?_eq_getElem?] at h
  rw [List.getD_eq_getElem?_getD, h]
  rfl

theorem isValidPath_getD_last {locs : Locs} {fl : Int} {a b : String} {p : List String}
    (hv : isValidPath locs fl a b p = true) : p.getD (p.length - 1) "" = b := by
  rw [isValidPath_iff] at hv
  have h := hv.2.1
  rw [List.getLast?_eq_getElem?] at h
  rw [List.getD_eq_getElem?_getD, h]
  rfl

theorem isValidPath_edge_getD {locs : Locs} {fl : Int} {a b : String} {p : List String}
    (hv : isValidPath locs fl a b p = true) (i : Nat) (hi : i + 1 < p.length) :
    isEdge locs fl (p.getD i "") (p.getD (i + 1) "") = true := by
  rw [isValidPath_iff] at hv
  exact chainB_getD _ _ p hv.2.2 i hi

theorem isValidPath_floorOk_getD {locs : Locs} {fl : Int} {a b : String} {p : List String}
    (hv : isValidPath locs fl a b p = true) (j : Nat) (h1 : 1 ≤ j) (h2 : j < p.length) :
    floorOk locs fl (p.getD j "") = true := by
  obtain ⟨i, rfl⟩ : ∃ i, j = i + 1 := ⟨j - 1, by omega⟩
  have h := isValidPath_edge_getD hv i h2
  simp only [isEdge, Bool.and_eq_true] at h
  exact h.2

/-! Frontier-expansion characterisation. -/

theorem expandStep_visited_subset (locs : Locs) (fl : Int) (path : List String) :
    ∀ ns visited, ∀ v ∈ visited, v ∈ (expandStep locs fl path ns visited).1 := by
  intro ns
  induction ns with
  | nil => intro visited v hv; simpa [expandStep] using hv
  | cons n ns ih =>
    intro visited v hv
    simp only [expandStep]
    by_cases hc : visited.contains n = true
    · rw [if_pos hc]
      exact ih visited v hv
    · rw [if_neg hc]
      by_cases hf : floorOk locs fl n = true
      · rw [if_pos hf]
        exact ih (n :: visited) v (List.mem_cons_of_mem _ hv)
      · rw [if_neg hf]
        exact ih (n :: visited) v (List.mem_cons_of_mem _ hv)

theorem expandStep_ns_subset (locs : Locs) (fl : Int) (path : List String) :
    ∀ ns visited, ∀ n ∈ ns, n ∈ (expandStep locs fl path ns visited).1 := by
  intro ns
  induction ns with
  | nil => intro visited n hn; simp at hn
  | cons m ns ih =>
    intro visited n hn
    simp only [expandStep]
    by_cases hc : visited.contains m = true
    · rw [if_pos hc]
      rcases List.mem_cons.mp hn with rfl | hn2
      · exact expandStep_visited_subset locs fl path ns visited n
          (by simpa using hc)
      · exact ih visited n hn2
    · rw [if_neg hc]
      have hmem : n ∈ (expandStep locs fl path ns (m :: visited)).1 := by
        rcases List.mem_cons.mp hn with h | hn2
        · rw [h]
          exact expandStep_visited_subset locs fl path ns (m :: visited) m
            (List.mem_cons_self _ _)
        · exact ih (m :: visited) n hn2
      by_cases hf : floorOk locs fl n = true
      · by_cases hf2 : floorOk locs fl m = true
        · rw [if_pos hf2]; exact hmem
        · rw [if_neg hf2]; exact hmem
      · by_cases hf2 : floorOk locs fl m = true
        · rw [if_pos hf2]; exact hmem
        · rw [if_neg hf2]; exact hmem

theorem expandStep_visited_orig (locs : Locs) (fl : Int) (path : List String) :
    ∀ ns visited, ∀ v ∈ (expandStep locs fl path ns visited).1,
      v ∈ visited ∨ v ∈ ns := by
  intro ns
  induction ns with
  | nil => intro visited v hv; left; simpa [expandStep] using hv
  | cons n ns ih =>
    intro visited v hv
    simp only [expandStep] at hv
    by_cases hc : visited.contains n = true
    · rw [if_pos hc] at hv
      rcases ih visited v hv with h | h
      · exact Or.inl h
      · exact Or.inr (List.mem_cons_of_mem _ h)
    · rw [if_neg hc] at hv
      have hv2 : v ∈ (expandStep locs fl path ns (n :: visited)).1 := by
        by_cases hf : floorOk locs fl n = true
        · rwa [if_pos hf] at hv
        · rwa [if_neg hf] at hv
      rcases ih (n :: visited) v hv2 with h | h
      · rcases List.mem_cons.mp h with rfl | h2
        · exact Or.inr (List.mem_cons_self _ _)
        · exact Or.inl h2
      · exact Or.inr (List.mem_cons_of_mem _ h)

theorem expandStep_pushed (locs : Locs) (fl : Int) (path : List String) :
    ∀ ns visited, ∀ e ∈ (expandStep locs fl path ns visited).2,
      e.1 ∈ ns ∧ floorOk locs fl e.1 = true ∧ e.1 ∉ visited ∧
        e.2 = path ++ [e.1] := by
  intro ns
  induction ns with
  | nil => intro visited e he; simp [expandStep] at he
  | cons n ns ih =>
    intro visited e he
    simp only [expandStep] at he
    by_cases hc : visited.contains n = true
    · rw [if_pos hc] at he
      obtain ⟨h1, h2, h3, h4⟩ := ih visited e he
      exact ⟨List.mem_cons_of_mem _ h1, h2, h3, h4⟩
    · rw [if_neg hc] at he
      by_cases hf : floorOk locs fl n = true
      · rw [if_pos hf] at he
        rcases List.mem_cons.mp he with rfl | he2
        · exact ⟨List.mem_cons_self _ _, hf, by simpa using hc, rfl⟩
        · obtain ⟨h1, h2, h3, h4⟩ := ih (n :: visited) e he2
          refine ⟨List.mem_cons_of_mem _ h1, h2, ?_, h4⟩
          intro hcontra
          exact h3 (List.mem_cons_of_mem _ hcontra)
      · rw [if_neg hf] at he
        obtain ⟨h1, h2, h3, h4⟩ := ih (n :: visited) e he
        refine ⟨List.mem_cons_of_mem _ h1, h2, ?_, h4⟩
        intro hcontra
        exact h3 (List.mem_cons_of_mem _ hcontra)

theorem expandStep_pushes_fresh (locs : Locs) (fl : Int) (path : List String) :
    ∀ ns visited, ∀ n ∈ ns, n ∉ visited → floorOk locs fl n = true →
      ∃ e ∈ (expandStep locs fl path ns visited).2, e.1 = n := by
  intro ns
  induction ns with
  | nil => intro visited n hn; simp at hn
  | cons m ns ih =>
    intro visited n hn hnv hnf
    simp only [expandStep]
    by_cases hc : visited.contains m = true
    · rw [if_pos hc]
      rcases List.mem_cons.mp hn with rfl | hn2
      · exact absurd (by simpa using hc) hnv
      · exact ih visited n hn2 hnv hnf
    · rw [if_neg hc]
      rcases List.mem_cons.mp hn with rfl | hn2
      · rw [if_pos hnf]
        exact ⟨(n, path ++ [n]), List.mem_cons_self _ _, rfl⟩
      · by_cases hmn : n = m
        · subst hmn
          rw [if_pos hnf]
          exact ⟨(n, path ++ [n]), List.mem_cons_self _ _, rfl⟩
        · have hrec := ih (m :: visited) n hn2
            (by intro hcontra; rcases List.mem_cons.mp hcontra with h | h
                · exact hmn h
                · exact hnv h) hnf
          obtain ⟨e, he, he1⟩ := hrec
          by_cases hf : floorOk locs fl m = true
          · rw [if_pos hf]
            exact ⟨e, List.mem_cons_of_mem _ he, he1⟩
          · rw [if_neg hf]
            exact ⟨e, he, he1⟩

/-! Fuel-measure lemmas: every push marks a fresh graph key visited. -/

theorem filter_length_mono {α : Type} {p q : α → Bool} :
    ∀ l : List α, (∀ a ∈ l, p a = true → q a = true) →
      (l.filter p).length ≤ (l.filter q).length := by
  intro l
  induction l with
  | nil => intro _; simp
  | cons a t ih =>
    intro h
    have ht := ih (fun x hx => h x (List.mem_cons_of_mem _ hx))
    by_cases hp : p a = true
    · rw [List.filter_cons_of_pos hp, List.filter_cons_of_pos (h a (List.mem_cons_self _ _) hp)]
      simpa using ht
    · rw [List.filter_cons_of_neg (by simpa using hp)]
      by_cases hq : q a = true
      · rw [List.filter_cons_of_pos hq]
        simp only [List.length_cons]
        omega
      · rw [List.filter_cons_of_neg (by simpa using hq)]
        exact ht

theorem not_contains_tail {visited : List String} {n k : String}
    (hk : (!(n :: visited).contains k) = true) : (!visited.contains k) = true := by
  have h2 : k ∉ n :: visited := by simpa using hk
  have h3 : k ∉ visited := fun h => h2 (List.mem_cons_of_mem _ h)
  simpa using h3

theorem keysNotVisited_cons_le (locs : Locs) (visited : List String) (n : String) :
    keysNotVisited locs (n :: visited) ≤ keysNotVisited locs visited := by
  unfold keysNotVisited
  apply filter_length_mono
  intro k _ hk
  exact not_contains_tail hk

theorem keysNotVisited_cons_lt (locs : Locs) (visited : List String) (n : String)
    (hkey : n ∈ locs.map Prod.fst) (hnv : n ∉ visited) :
    keysNotVisited locs (n :: visited) + 1 ≤ keysNotVisited locs visited := by
  unfold keysNotVisited
  have hmemd : n ∈ (locs.map Prod.fst).dedup := List.mem_dedup.mpr hkey
  revert hmemd
  generalize (locs.map Prod.fst).dedup = L
  intro hmemd
  induction L with
  | nil => simp at hmemd
  | cons a t ih =>
    by_cases han : a = n
    · subst han
      have hp1 : ((fun k => !(a :: visited).contains k) a) = false := by simp
      have hp2 : ((fun k => !visited.contains k) a) = true := by simpa using hnv
      rw [List.filter_cons_of_neg (by simp),
        List.filter_cons_of_pos (p := fun k => !visited.contains k) hp2]
      simp only [List.length_cons]
      have hmono := filter_length_mono (p := fun k => !(a :: visited).contains k)
        (q := fun k => !visited.contains k) t ?_
      · omega
      · intro k _ hk
        exact not_contains_tail hk
    · have hmt : n ∈ t := by
        rcases List.mem_cons.mp hmemd with h | h
        · exact absurd h.symm han
        · exact h
      have iht := ih hmt
      by_cases hpa : ((fun k => !(n :: visited).contains k) a) = true
      · have hqa : ((fun k => !visited.contains k) a) = true := not_contains_tail hpa
        rw [List.filter_cons_of_pos (p := fun k => !(n :: visited).contains k) hpa,
          List.filter_cons_of_pos (p := fun k => !visited.contains k) hqa]
        simp only [List.length_cons]
        omega
      · rw [List.filter_cons_of_neg (p := fun k => !(n :: visited).contains k)
          (by simpa using hpa)]
        by_cases hqa : ((fun k => !visited.contains k) a) = true
        · rw [List.filter_cons_of_pos (p := fun k => !visited.contains k) hqa]
          simp only [List.length_cons]
          omega
        · rw [List.filter_cons_of_neg (p := fun k => !visited.contains k)
            (by simpa using hqa)]
          exact iht

theorem floorOk_mem_keys {locs : Locs} {fl : Int} {n : String}
    (h : floorOk locs fl n = true) : n ∈ locs.map Prod.fst := by
  unfold floorOk at h
  cases hl : locs.lookup n with
  | none => rw [hl] at h; simp at h
  | some v =>
    have := lookup_mem hl
    exact List.mem_map.mpr ⟨(n, v), this, rfl⟩

theorem expandStep_measure (locs : Locs) (fl : Int) (path : List String) :
    ∀ ns visited,
      keysNotVisited locs (expandStep locs fl path ns visited).1 +
        (expandStep locs fl path ns visited).2.length ≤
      keysNotVisited locs visited := by
  intro ns
  induction ns with
  | nil => intro visited; simp [expandStep]
  | cons n ns ih =>
    intro visited
    simp only [expandStep]
    by_cases hc : visited.contains n = true
    · rw [if_pos hc]
      exact ih visited
    · rw [if_neg hc]
      have hnv : n ∉ visited := by simpa using hc
      by_cases hf : floorOk locs fl n = true
      · rw [if_pos hf]
        simp only [List.length_cons]
        have h1 := ih (n :: visited)
        have h2 := keysNotVisited_cons_lt locs visited n (floorOk_mem_keys hf) hnv
        omega
      · rw [if_neg hf]
        have h1 := ih (n :: visited)
        have h2 := keysNotVisited_cons_le locs visited n
        omega

theorem pairwise_of_all {α : Type} {R : α → α → Prop} :
    ∀ l : List α, (∀ a ∈ l, ∀ b ∈ l, R a b) → List.Pairwise R l := by
  intro l
  induction l with
  | nil => intro _; exact List.Pairwise.nil
  | cons a t ih =>
    intro h
    rw [List.pairwise_cons]
    constructor
    · intro b hb
      exact h a (List.mem_cons_self _ _) b (List.mem_cons_of_mem _ hb)
    · exact ih (fun x hx y hy =>
        h x (List.mem_cons_of_mem _ hx) y (List.mem_cons_of_mem _ hy))

/-- Walking forward along a valid source-to-target walk while inside the
visited region must reach a queued entry holding a walk no longer than the
walk's prefix up to that point. -/
theorem bfs_walk (locs : Locs) (fl : Int) (S T : String)
    (Q : List (String × List String)) (V : List String) (B : Nat)
    (hclosed : ∀ v ∈ V, (v = S ∨ floorOk locs fl v = true) →
      (∀ e ∈ Q, e.1 ≠ v) → ∀ w, isEdge locs fl v w = true → w ∈ V)
    (hopenT : floorOk locs fl T = true → T ∈ V → ∃ e ∈ Q, e.1 = T)
    (hbound : ∀ e ∈ Q, e.2.length ≤ B)
    (p : List String) (hp : isValidPath locs fl S T p = true) :
    ∀ k m, p.length - m = k → 1 ≤ m → m < p.length → p.getD m "" ∈ V →
      B ≤ m + 1 →
      ∃ e ∈ Q, ∃ j, j < p.length ∧ p.getD j "" = e.1 ∧ e.2.length ≤ j + 1 := by
  intro k
  induction k with
  | zero => intro m hk h1 h2 _ _; omega
  | succ k ih =>
    intro m hk h1 h2 hmV hB
    by_cases hq : ∃ e ∈ Q, e.1 = p.getD m ""
    · obtain ⟨e, he, he1⟩ := hq
      exact ⟨e, he, m, h2, he1.symm, le_trans (hbound e he) hB⟩
    · push_neg at hq
      have hfloor : floorOk locs fl (p.getD m "") = true :=
        isValidPath_floorOk_getD hp m h1 h2
      by_cases hlast : m = p.length - 1
      · exfalso
        have hT : p.getD m "" = T := by
          rw [hlast]
          exact isValidPath_getD_last hp
        rw [hT] at hfloor hmV
        obtain ⟨e, he, he1⟩ := hopenT hfloor hmV
        apply hq e he
        rw [he1, hT]
      · have hm1 : m + 1 < p.length := by omega
        have hedge := isValidPath_edge_getD hp m hm1
        have hnext : p.getD (m + 1) "" ∈ V := by
          exact hclosed (p.getD m "") hmV (Or.inr hfloor) hq _ hedge
        exact ih (m + 1) (by omega) (by omega) hm1 hnext (by omega)

/-- One BFS loop iteration preserves the invariant: dequeue `(l, path)` with
`l` not the target, expand `l`'s connections, keep the rest of the queue and
append the fresh entries. -/
theorem bfsInv_step (locs : Locs) (fl : Int) (S T : String)
    (l : String) (path : List String) (rest : List (String × List String))
    (V : List String)
    (inv : BfsInv locs fl S T ((l, path) :: rest) V) (hlT : l ≠ T) :
    BfsInv locs fl S T
      (rest ++ (expandStep locs fl path (connectionsOf locs l) V).2)
      (expandStep locs fl path (connectionsOf locs l) V).1 := by
  set st := expandStep locs fl path (connectionsOf locs l) V with hst
  have hV1 : ∀ v ∈ V, v ∈ st.1 :=
    fun v hv => expandStep_visited_subset locs fl path _ V v hv
  have hns1 : ∀ n ∈ connectionsOf locs l, n ∈ st.1 :=
    fun n hn => expandStep_ns_subset locs fl path _ V n hn
  have horig : ∀ v ∈ st.1, v ∈ V ∨ v ∈ connectionsOf locs l :=
    fun v hv => expandStep_visited_orig locs fl path _ V v hv
  have hpush : ∀ e ∈ st.2, e.1 ∈ connectionsOf locs l ∧
      floorOk locs fl e.1 = true ∧ e.1 ∉ V ∧ e.2 = path ++ [e.1] :=
    fun e he => expandStep_pushed locs fl path _ V e he
  have hfresh : ∀ n ∈ connectionsOf locs l, n ∉ V → floorOk locs fl n = true →
      ∃ e ∈ st.2, e.1 = n :=
    fun n hn hnv hnf => expandStep_pushes_fresh locs fl path _ V n hn hnv hnf
  have hheadvalid := inv.sound (l, path) (List.mem_cons_self _ _)
  have hheadpair : ∀ e ∈ rest, path.length ≤ e.2.length := by
    have hps := inv.sorted
    rw [List.pairwise_cons] at hps
    exact hps.1
  have hpushlen : ∀ e ∈ st.2, e.2.length = path.length + 1 := by
    intro e he
    rw [(hpush e he).2.2.2]
    simp
  have hsound2 : ∀ e ∈ rest ++ st.2, isValidPath locs fl S e.1 e.2 = true := by
    intro e he
    rcases List.mem_append.mp he with h | h
    · exact inv.sound e (List.mem_cons_of_mem _ h)
    · obtain ⟨h1, h2, _, h4⟩ := hpush e h
      rw [h4]
      apply isValidPath_extend locs fl S l e.1 path hheadvalid
      simp only [isEdge, Bool.and_eq_true, h2, and_true]
      simpa using h1
  have hclosed2 : ∀ v ∈ st.1, (v = S ∨ floorOk locs fl v = true) →
      (∀ e ∈ rest ++ st.2, e.1 ≠ v) → ∀ w, isEdge locs fl v w = true →
      w ∈ st.1 := by
    intro v hv hvS hvq w hw
    by_cases hvV : v ∈ V
    · by_cases hvl : v = l
      · subst hvl
        have hwc : w ∈ connectionsOf locs v := by
          simp only [isEdge, Bool.and_eq_true] at hw
          simpa using hw.1
        exact hns1 w hwc
      · have hold := inv.closed v hvV hvS ?_ w hw
        · exact hV1 w hold
        · intro e he
          rcases List.mem_cons.mp he with heq | h
          · rw [heq]
            intro hcontra
            exact hvl hcontra.symm
          · exact hvq e (List.mem_append.mpr (Or.inl h))
    · have hvC : v ∈ connectionsOf locs l := (horig v hv).resolve_left hvV
      have hfl2 : floorOk locs fl v = true := by
        rcases hvS with rfl | h
        · exact absurd inv.sInV hvV
        · exact h
      obtain ⟨e, he, he1⟩ := hfresh v hvC hvV hfl2
      exact absurd he1 (hvq e (List.mem_append.mpr (Or.inr he)))
  have hopenT2 : floorOk locs fl T = true → T ∈ st.1 →
      ∃ e ∈ rest ++ st.2, e.1 = T := by
    intro hfT hTst
    by_cases hTV : T ∈ V
    · obtain ⟨e, he, he1⟩ := inv.openT hfT hTV
      rcases List.mem_cons.mp he with heq | h
      · rw [heq] at he1
        exact absurd he1 hlT
      · exact ⟨e, List.mem_append.mpr (Or.inl h), he1⟩
    · have hTC : T ∈ connectionsOf locs l := (horig T hTst).resolve_left hTV
      obtain ⟨e, he, he1⟩ := hfresh T hTC hTV hfT
      exact ⟨e, List.mem_append.mpr (Or.inr he), he1⟩
  have hbound2 : ∀ e ∈ rest ++ st.2, e.2.length ≤ path.length + 1 := by
    intro e he
    rcases List.mem_append.mp he with h | h
    · exact inv.window (l, path) (List.mem_cons_self _ _) e (List.mem_cons_of_mem _ h)
    · rw [hpushlen e h]
  refine ⟨hsound2, hV1 S inv.sInV, hclosed2, hopenT2, ?_, ?_, ?_⟩
  · rw [List.pairwise_append]
    refine ⟨(List.pairwise_cons.mp inv.sorted).2, ?_, ?_⟩
    · apply pairwise_of_all
      intro a ha b hb
      rw [hpushlen a ha, hpushlen b hb]
    · intro a ha b hb
      rw [hpushlen b hb]
      have ha2 : a.2.length ≤ path.length + 1 :=
        inv.window (l, path) (List.mem_cons_self _ _) a (List.mem_cons_of_mem _ ha)
      omega
  · intro e1 he1 e2 he2
    rcases List.mem_append.mp he1 with h1 | h1
    · rcases List.mem_append.mp he2 with h2 | h2
      · exact inv.window e1 (List.mem_cons_of_mem _ h1) e2 (List.mem_cons_of_mem _ h2)
      · rw [hpushlen e2 h2]
        have := hheadpair e1 h1
        omega
    · rcases List.mem_append.mp he2 with h2 | h2
      · rw [hpushlen e1 h1]
        have he22 : e2.2.length ≤ path.length + 1 :=
          inv.window (l, path) (List.mem_cons_self _ _) e2 (List.mem_cons_of_mem _ h2)
        omega
      · rw [hpushlen e1 h1, hpushlen e2 h2]
        omega
  · intro p hp
    obtain ⟨e, he, i, hi, hpi, hei⟩ := inv.cover p hp
    rcases List.mem_cons.mp he with heq | hrest2
    · have hpil : p.getD i "" = l := by rw [hpi, heq]
      have helen : e.2.length = path.length := by rw [heq]
      have hiT : i ≠ p.length - 1 := by
        intro hcontra
        have hlastp := isValidPath_getD_last hp
        rw [← hcontra] at hlastp
        exact hlT (hpil.symm.trans hlastp)
      have hi1 : i + 1 < p.length := by omega
      have hedge := isValidPath_edge_getD hp i hi1
      rw [hpil] at hedge
      have hwc : p.getD (i + 1) "" ∈ connectionsOf locs l := by
        simp only [isEdge, Bool.and_eq_true] at hedge
        simpa using hedge.1
      have hw : p.getD (i + 1) "" ∈ st.1 := hns1 _ hwc
      exact bfs_walk locs fl S T (rest ++ st.2) st.1 (path.length + 1)
        hclosed2 hopenT2 hbound2 p hp (p.length - (i + 1)) (i + 1) rfl
        (by omega) hi1 hw (by omega)
    · exact ⟨e, List.mem_append.mpr (Or.inl hrest2), i, hi, hpi, hei⟩

/-- BFS main induction: under the invariant and with fuel at least the
measure, the returned walk is valid and no longer than any valid
source-to-target walk. -/
theorem bfsAux_complete (locs : Locs) (fl : Int) (S T : String) :
    ∀ fuel Q V, BfsInv locs fl S T Q V →
      2 * keysNotVisited locs V + Q.length ≤ fuel →
      ∀ p, isValidPath locs fl S T p = true →
        isValidPath locs fl S T (bfsAux locs fl T fuel Q V) = true ∧
        (bfsAux locs fl T fuel Q V).length ≤ p.length := by
  intro fuel
  induction fuel with
  | zero =>
    intro Q V inv hfuel p hp
    obtain ⟨e, he, _⟩ := inv.cover p hp
    cases Q with
    | nil => simp at he
    | cons a t =>
      exfalso
      simp only [List.length_cons] at hfuel
      omega
  | succ fuel ih =>
    intro Q V inv hfuel p hp
    cases Q with
    | nil =>
      obtain ⟨e, he, _⟩ := inv.cover p hp
      simp at he
    | cons hd rest =>
      obtain ⟨l, path⟩ := hd
      rw [bfsAux]
      by_cases hlT : (l == T) = true
      · rw [if_pos hlT]
        have hlT2 : l = T := by simpa using hlT
        subst hlT2
        constructor
        · exact inv.sound (l, path) (List.mem_cons_self _ _)
        · obtain ⟨e, he, i, hi, hpi, hei⟩ := inv.cover p hp
          have hple : path.length ≤ e.2.length := by
            rcases List.mem_cons.mp he with heq | h
            · rw [heq]
            · exact (List.pairwise_cons.mp inv.sorted).1 e h
          omega
      · rw [if_neg hlT]
        have hlT2 : l ≠ T := by simpa using hlT
        have hmeasure : 2 * keysNotVisited locs
              (expandStep locs fl path (connectionsOf locs l) V).1 +
            (rest ++ (expandStep locs fl path (connectionsOf locs l) V).2).length ≤
            fuel := by
          have hm := expandStep_measure locs fl path (connectionsOf locs l) V
          simp only [List.length_append, List.length_cons] at hfuel ⊢
          omega
        exact ih _ _ (bfsInv_step locs fl S T l path rest V inv hlT2) hmeasure p hp

/-- `findPath` between known same-floor locations returns a shortest valid
floor-restricted walk whenever any valid walk exists. -/
theorem findPath_shortest (locs : Locs) (X Y : String) (xl yl : Location)
    (hx : locs.lookup X = some xl) (hy : locs.lookup Y = some yl)
    (hfl : xl.floor = yl.floor)
    (p : List String) (hp : isValidPath locs xl.floor X Y p = true) :
    isValidPath locs xl.floor X Y (findPath locs X Y) = true ∧
    (findPath locs X Y).length ≤ p.length := by
  by_cases hXY : X = Y
  · subst hXY
    have heq : findPath locs X X = [X] := by
      unfold findPath
      rw [hx]
      simp
    rw [heq]
    refine ⟨isValidPath_single locs xl.floor X, ?_⟩
    have hne := isValidPath_ne_nil hp
    cases p with
    | nil => exact absurd rfl hne
    | cons a t => simp
  · have heq : findPath locs X Y =
        bfsAux locs xl.floor Y (2 * locs.length + 1) [(X, [X])] [X] := by
      unfold findPath
      rw [hx, hy]
      have hb : (X == Y) = false := by simpa using hXY
      rw [hb]
      simp only [Bool.false_eq_true, if_false]
      have hbn : (xl.floor != yl.floor) = false := by simp [hfl]
      rw [hbn]
      simp only [Bool.false_eq_true, if_false]
    have inv0 : BfsInv locs xl.floor X Y [(X, [X])] [X] := by
      refine ⟨?_, List.mem_cons_self _ _, ?_, ?_, ?_, ?_, ?_⟩
      · intro e he
        rcases List.mem_singleton.mp he with rfl
        exact isValidPath_single locs xl.floor X
      · intro v hv _ hvq _ _
        rcases List.mem_singleton.mp hv with rfl
        exact absurd rfl (hvq (v, [v]) (List.mem_cons_self _ _))
      · intro _ hTV
        rcases List.mem_singleton.mp hTV with rfl
        exact absurd rfl (Ne.symm hXY)
      · simp
      · intro e1 he1 e2 he2
        rcases List.mem_singleton.mp he1 with rfl
        rcases List.mem_singleton.mp he2 with rfl
        simp
      · intro q hq
        refine ⟨(X, [X]), List.mem_cons_self _ _, 0, ?_, ?_, ?_⟩
        · have := isValidPath_ne_nil hq
          cases q with
          | nil => exact absurd rfl this
          | cons a t => simp
        · exact isValidPath_getD_zero hq
        · simp
    have hmeasure0 : 2 * keysNotVisited locs [X] + ([(X, [X])] : List (String × List String)).length ≤
        2 * locs.length + 1 := by
      have h1 : keysNotVisited locs [X] ≤ ((locs.map Prod.fst).dedup).length :=
        List.length_filter_le _ _
      have h2 : ((locs.map Prod.fst).dedup).length ≤ (locs.map Prod.fst).length :=
        (List.dedup_sublist _).length_le
      rw [List.length_map] at h2
      simp only [List.length_cons, List.length_nil]
      omega
    rw [heq]
    exact bfsAux_complete locs xl.floor X Y (2 * locs.length + 1) _ _
      inv0 hmeasure0 p hp

/-- C3: for every pair of known same-floor locations X, Y connected in the
floor-restricted stored-edge graph, `findPath` returns a walk from X to Y,
inclusive of both endpoints, whose hop count is minimal among all valid
walks (that is, equals the BFS graph distance over the stored, not assumed
symmetric, edges); and `findPath(X, X) = [X]` for every known X. -/
theorem C3_theorem (locs : Locs) (X Y : String) (xl yl : Location)
    (hx : locs.lookup X = some xl) (hy : locs.lookup Y = some yl)
    (hfl : xl.floor = yl.floor)
    (hconn : ∃ p, isValidPath locs xl.floor X Y p = true) :
    (isValidPath locs xl.floor X Y (findPath locs X Y) = true ∧
      ∀ q, isValidPath locs xl.floor X Y q = true →
        (findPath locs X Y).length ≤ q.length) ∧
    findPath locs X X = [X] := by
  obtain ⟨p0, hp0⟩ := hconn
  refine ⟨⟨(findPath_shortest locs X Y xl yl hx hy hfl p0 hp0).1, ?_⟩, ?_⟩
  · intro q hq
    exact (findPath_shortest locs X Y xl yl hx hy hfl q hq).2
  · unfold findPath
    rw [hx]
    simp

/-- C3 witness: the A-to-C route over the line graph is valid and minimal,
and the self-route collapses to a single element. -/
theorem C3_witness :
    (isValidPath lineLocs (demoLoc 1 ["B"]).floor "A" "C"
        (findPath lineLocs "A" "C") = true ∧
      ∀ q, isValidPath lineLocs (demoLoc 1 ["B"]).floor "A" "C" q = true →
        (findPath lineLocs "A" "C").length ≤ q.length) ∧
    findPath lineLocs "A" "A" = ["A"] :=
  C3_theorem lineLocs "A" "C" (demoLoc 1 ["B"]) (demoLoc 1 ["B"]) rfl rfl rfl
    ⟨["A", "B", "C"], by decide⟩

end MoltHotel
